import Mathlib

/-!
# Verification of the balatro-chess bitboard engine core

A shallow embedding of the bitboard chess engine (16×16 board encoded as a
256-bit integer) and proofs about its move generation, make/unmake protocol,
Zobrist hashing, evaluation and search driver.

Machine integers are modelled as `Nat` with explicit reduction modulo
`2 ^ 256` (the 256-bit board), modulo `2 ^ 32` (Zobrist hashes) and signed
wrap-around into the `i32` range for evaluation scores.  The shared
reference-counted memoisation tables for evaluation and quiescence are
modelled as transparent (not memoised); the principal-variation table and
the visited-positions reference counts, which influence control flow, are
modelled explicitly as functions carried in the position state.
-/

/-! ## Bit primitives (the 256-bit `Bitboard`) -/

/-- The modulus of the 256-bit board type. -/
def U256 : Nat := 2 ^ 256

/-- All 256 bits set; used to express bitwise complement on `Nat`. -/
def mask256 : Nat := U256 - 1

/-- Bitwise NOT within 256 bits (`impl Not for Bitboard`). -/
def bbNot (b : Nat) : Nat := b ^^^ mask256

/-- Wrapping left shift within 256 bits (`wrapping_shl`). -/
def shl (b k : Nat) : Nat := (b <<< k) % U256

/-- Right shift (`wrapping_shr`; shift counts used are all < 256). -/
def shr (b k : Nat) : Nat := b >>> k

/-- `Bitboard::set`: clear bit `index`, then or in `value` at `index`. -/
def bbSet (b : Nat) (i : Nat) (v : Bool) : Nat :=
  (b &&& bbNot (1 <<< i)) ||| ((if v then 1 else 0) <<< i)

/-- `Bitboard::get`: test bit `index`. -/
def bbGet (b i : Nat) : Bool := b &&& (1 <<< i) != 0

/-- Bit scan up to a fuel of 256 (enough for any 256-bit value). -/
def ctzGo : Nat → Nat → Nat
  | 0, _ => 0
  | fuel + 1, b => if b % 2 = 1 then 0 else ctzGo fuel (b / 2) + 1

/-- Count of trailing zeros; `256` on the zero board (`u256::trailing_zeros`),
used by `Bitboard::to_bit_idx`. -/
def ctz (b : Nat) : Nat := if b = 0 then 256 else ctzGo 256 b

/-- Popcount up to a fuel of 256 bits. -/
def countOnesGo : Nat → Nat → Nat
  | 0, _ => 0
  | fuel + 1, b => b % 2 + countOnesGo fuel (b / 2)

/-- Number of set bits (`count_ones`; all uses are on values below `2^256`). -/
def countOnes (b : Nat) : Nat := countOnesGo 256 b

/-- `u16::trailing_ones` (the argument is a 16-bit word). -/
def trailingOnes16 (b : Nat) : Nat := ctz ((b ^^^ 0xFFFF) ||| (2 ^ 16))

/-- `u16::leading_ones`: count set bits downward from bit 15. -/
def leadingOnes16 (b : Nat) : Nat :=
  go b 15 16
where
  go (b : Nat) (bit : Nat) : Nat → Nat
    | 0 => 0
    | fuel + 1 => if b.testBit bit then 1 + go b (bit - 1) fuel else 0

/-- `Bitboard::to_column_representation`: or-reduce the sixteen 16-bit rows
(read off the big-endian byte pairs) into one 16-bit column-occupancy word. -/
def toColumnRepresentation (b : Nat) : Nat :=
  (List.range 16).foldl (fun acc i => acc ||| ((b >>> (240 - 16 * i)) % 2 ^ 16)) 0

/-! ## Pieces -/

/-- `PieceType` (declaration order gives the derived `Ord`). -/
inductive PieceType where
  | King | Queen | Rook | Bishop | Knight | Pawn
deriving DecidableEq, Repr, Inhabited

/-- The discriminant of a `PieceType` (its derived-`Ord` rank). -/
def PieceType.toNat : PieceType → Nat
  | .King => 0 | .Queen => 1 | .Rook => 2 | .Bishop => 3 | .Knight => 4 | .Pawn => 5

/-- `PieceColor`. -/
inductive PieceColor where
  | White | Black
deriving DecidableEq, Repr, Inhabited

def PieceColor.toNat : PieceColor → Nat
  | .White => 0 | .Black => 1

/-- `PieceColor::next`. -/
def PieceColor.next : PieceColor → PieceColor
  | .White => .Black | .Black => .White

/-- `PieceColor::score_sign`. -/
def PieceColor.scoreSign : PieceColor → Int
  | .White => 1 | .Black => -1

/-- `Piece(PieceType, PieceColor)`. -/
structure Piece where
  kind : PieceType
  color : PieceColor
deriving DecidableEq, Repr, Inhabited

def WHITE_KING : Piece := ⟨.King, .White⟩
def BLACK_KING : Piece := ⟨.King, .Black⟩
def WHITE_QUEEN : Piece := ⟨.Queen, .White⟩
def BLACK_QUEEN : Piece := ⟨.Queen, .Black⟩
def WHITE_ROOK : Piece := ⟨.Rook, .White⟩
def BLACK_ROOK : Piece := ⟨.Rook, .Black⟩
def WHITE_BISHOP : Piece := ⟨.Bishop, .White⟩
def BLACK_BISHOP : Piece := ⟨.Bishop, .Black⟩
def WHITE_KNIGHT : Piece := ⟨.Knight, .White⟩
def BLACK_KNIGHT : Piece := ⟨.Knight, .Black⟩
def WHITE_PAWN : Piece := ⟨.Pawn, .White⟩
def BLACK_PAWN : Piece := ⟨.Pawn, .Black⟩

/-- `PieceType::iter` order. -/
def pieceTypeList : List PieceType := [.King, .Queen, .Rook, .Bishop, .Knight, .Pawn]

/-- `Piece::iter_color`: the six pieces of one color, in `PieceType` order. -/
def pieceIterColor (c : PieceColor) : List Piece := pieceTypeList.map (fun t => ⟨t, c⟩)

/-- `Piece::iter`: all twelve pieces, type-major then color. -/
def pieceIterAll : List Piece :=
  pieceTypeList.flatMap (fun t => [(⟨t, .White⟩ : Piece), ⟨t, .Black⟩])

/-- `bitboard_idx`: index of a piece's board, `kind + 6 * color`. -/
def bitboardIdx (p : Piece) : Nat := p.kind.toNat + p.color.toNat * 6

/-- The fixture-character mapping (`From<char> for Piece`); lowercase is
White, uppercase Black. -/
def charPiece : Char → Option Piece
  | 'k' => some WHITE_KING
  | 'K' => some BLACK_KING
  | 'q' => some WHITE_QUEEN
  | 'Q' => some BLACK_QUEEN
  | 'r' => some WHITE_ROOK
  | 'R' => some BLACK_ROOK
  | 'b' => some WHITE_BISHOP
  | 'B' => some BLACK_BISHOP
  | 'n' => some WHITE_KNIGHT
  | 'N' => some BLACK_KNIGHT
  | 'p' => some WHITE_PAWN
  | 'P' => some BLACK_PAWN
  | _ => none

/-! ## Plys -/

/-- `Ply`: a single move, with optional capture, linked move, en-passant
board and principal-variation marker. -/
structure Ply where
  movingPiece : Piece := ⟨.Pawn, .White⟩
  fromSq : Nat := 0
  toSq : Nat := 0
  capturing : Option (Piece × Nat) := none
  alsoMove : Option (Piece × Nat × Nat) := none
  enPassantBoard : Option Nat := none
  pvMove : Bool := false
deriving DecidableEq, Repr, Inhabited

/-- `Ply::capture_sorting_value`: MVV (victim) + LVA (attacker) value. -/
def Ply.captureSortingValue (p : Ply) : Nat :=
  match p.capturing with
  | some captured =>
    let victimValue : Nat :=
      match captured.1.kind with
      | .Queen => 25 | .Rook => 19 | .Bishop => 13 | .Knight => 7 | .Pawn => 1 | _ => 0
    let attackerValue : Nat :=
      match p.movingPiece.kind with
      | .Queen => 1 | .Rook => 2 | .Bishop => 3 | .Knight => 4 | .Pawn => 5 | _ => 0
    victimValue + attackerValue
  | none => 0

/-- `Ord for Ply`: PV first, then captures over non-captures, captures by
MVV-LVA value, non-captures by `PieceType` discriminant. -/
def plyCmp (a b : Ply) : Ordering :=
  match a.pvMove, b.pvMove with
  | true, false => .gt
  | false, true => .lt
  | _, _ =>
    match a.capturing, b.capturing with
    | none, some _ => .lt
    | some _, none => .gt
    | none, none => compare a.movingPiece.kind.toNat b.movingPiece.kind.toNat
    | some _, some _ => compare a.captureSortingValue b.captureSortingValue

/-- Ascending-stable insertion used to model `Vec::sort` (a stable sort by
`Ord`); an element is inserted before the first element it does not exceed. -/
def orderedInsertPly (x : Ply) : List Ply → List Ply
  | [] => [x]
  | y :: ys => if plyCmp x y = .gt then y :: orderedInsertPly x ys else x :: y :: ys

/-- Stable ascending sort of plys by `plyCmp` (models `Vec::sort`). -/
def sortPlys : List Ply → List Ply
  | [] => []
  | x :: xs => orderedInsertPly x (sortPlys xs)

/-! ## Zobrist hashing -/

/-- `CHANGE_PLAYER_INDEX`: 12 pieces × 256 squares, then one side-change key. -/
def changePlayerIndex : Nat := 3072

/-- `ZobristKey::Piece(piece, pos).to_index()` = `512*kind + 256*color + pos`. -/
def pieceKeyIndex (p : Piece) (pos : Nat) : Nat :=
  512 * p.kind.toNat + 256 * p.color.toNat + pos

/-- Modelled from the spec: the Zobrist table is filled by an RNG from an
external crate (`ChaCha8Rng::seed_from_u64(24337)`), whose source is not part
of this repository; the spec only requires a deterministic table of 32-bit
values generated from the constant seed.  We model it as a fixed injective
mixing function of the seed and the index. -/
def zobristTable (i : Nat) : Nat :=
  (24337 + (i + 1) * 2654435761) % 2 ^ 32

/-- `Zobrist::gen_initial_hash_bitboard`: XOR of the table entries of every
(piece, square) pair. -/
def genInitialHashBitboard (pairs : List (Piece × Nat)) : Nat :=
  pairs.foldl (fun h pr => h ^^^ zobristTable (pieceKeyIndex pr.1 pr.2)) 0

/-- `Zobrist::update_hash_bitboard`: XOR out the from-square, in the
to-square, the captured piece if any, and the change-player key.  Self-inverse. -/
def updateHashBitboard (hash : Nat) (ply : Ply) : Nat :=
  let h := hash ^^^ zobristTable (pieceKeyIndex ply.movingPiece ply.fromSq)
  let h := h ^^^ zobristTable (pieceKeyIndex ply.movingPiece ply.toSq)
  let h :=
    match ply.capturing with
    | some captured => h ^^^ zobristTable (pieceKeyIndex captured.1 captured.2)
    | none => h
  h ^^^ zobristTable changePlayerIndex

/-! ## The position state (`Bitboards`) -/

/-- `Bitboards`: the full position.  `boards` and `pieceList` are 12-entry
lists indexed by `bitboardIdx`.  The `visitedPositions` reference counts and
the `pvTable` (the only shared tables that influence control flow) are
modelled as functions; the evaluation/quiescence memo tables are modelled as
transparent. -/
structure Bitboards where
  boards : List Nat
  pieceList : List (List Nat)
  limits : Nat
  unmovedPieces : Nat
  enPassant : Nat
  zobristHash : Nat
  visitedPositions : Nat → Option Int
  checkCache : Bool
  pvTable : Nat → Option Ply

/-- Board of a piece-index (out-of-range reads give the empty board). -/
def boardAt (s : Bitboards) (i : Nat) : Nat := s.boards.getD i 0

/-- Piece list of a piece-index. -/
def listAt (s : Bitboards) (i : Nat) : List Nat := s.pieceList.getD i []

/-- Point update of a `Nat`-keyed table. -/
def tblSet {α : Type} (t : Nat → Option α) (k : Nat) (v : Option α) : Nat → Option α :=
  fun x => if x = k then v else t x

/-- `Bitboards::key_value_pieces_iter`: all (piece, square) pairs, from the
piece lists, in `Piece::iter` order. -/
def keyValuePiecesIter (s : Bitboards) : List (Piece × Nat) :=
  pieceIterAll.flatMap (fun p => (listAt s (bitboardIdx p)).map (fun idx => (p, idx)))

/-- `Bitboards::all_pieces`: OR of all twelve boards. -/
def allPiecesBB (s : Bitboards) : Nat := s.boards.foldl (fun acc e => acc ||| e) 0

/-- `Bitboards::all_pieces_by_color`. -/
def allPiecesByColor (s : Bitboards) (c : PieceColor) : Nat :=
  (pieceIterColor c).foldl (fun acc p => acc ||| boardAt s (bitboardIdx p)) 0

/-- `Bitboards::blocked_mask_for_color`: off-board or friendly squares. -/
def blockedMaskForColor (s : Bitboards) (c : PieceColor) : Nat :=
  bbNot s.limits ||| allPiecesByColor s c

/-! ## Fixture parsing (`Bitboards::from_str`) -/

/-- One parsing step state: current bit index, characters seen since the last
newline, the boards, the piece lists, and the limits mask. -/
structure ParseState where
  idx : Nat
  sinceNewline : Nat
  boards : List Nat
  pieceList : List (List Nat)
  limits : Nat

/-- The character loop of `Bitboards::from_str`; `none` models the
`BadFixture` panics (row wider than 16, unknown character). -/
def fromStrGo : List Char → ParseState → Option ParseState
  | [], st => some st
  | ch :: rest, st =>
    if ch = '\n' then
      fromStrGo rest { st with idx := st.idx + (16 - st.sinceNewline), sinceNewline := 0 }
    else if ch.isWhitespace then
      fromStrGo rest st
    else if st.sinceNewline ≥ 16 then
      none
    else
      let st := { st with sinceNewline := st.sinceNewline + 1,
                          limits := bbSet st.limits st.idx true }
      if ch = '0' then
        fromStrGo rest { st with idx := st.idx + 1 }
      else
        match charPiece ch with
        | none => none
        | some piece =>
          let bi := bitboardIdx piece
          fromStrGo rest
            { st with
              boards := st.boards.set bi (bbSet (st.boards.getD bi 0) st.idx true),
              pieceList := st.pieceList.set bi (st.pieceList.getD bi [] ++ [st.idx]),
              idx := st.idx + 1 }

/-- Whitespace-trim of a character list (`str::trim`). -/
def trimChars (l : List Char) : List Char :=
  ((l.dropWhile Char.isWhitespace).reverse.dropWhile Char.isWhitespace).reverse

/-- `Bitboards::from_str`: parse the trimmed fixture, seed `unmovedPieces`
with the union of all boards, compute the initial Zobrist hash, and set the
position's own `visitedPositions` count to 1. -/
def fromStr (input : String) : Option Bitboards :=
  match fromStrGo (trimChars input.toList)
      ⟨0, 0, List.replicate 12 0, List.replicate 12 [], 0⟩ with
  | none => none
  | some st =>
    let unmoved := st.boards.foldl (fun acc e => acc ||| e) 0
    let pre : Bitboards :=
      { boards := st.boards, pieceList := st.pieceList, limits := st.limits,
        unmovedPieces := unmoved, enPassant := 0, zobristHash := 0,
        visitedPositions := fun _ => none, checkCache := false,
        pvTable := fun _ => none }
    let hash := genInitialHashBitboard (keyValuePiecesIter pre)
    some { pre with zobristHash := hash,
                    visitedPositions := tblSet (fun _ => none) hash (some 1) }

/-! ## Direction shifts and ray walks -/

def shiftWe (b : Nat) : Nat := shr b 1
def shiftNw (b : Nat) : Nat := shr b 17
def shiftNo (b : Nat) : Nat := shr b 16
def shiftNe (b : Nat) : Nat := shr b 15
def shiftEa (b : Nat) : Nat := shl b 1
def shiftSe (b : Nat) : Nat := shl b 17
def shiftSo (b : Nat) : Nat := shl b 16
def shiftSw (b : Nat) : Nat := shl b 15
def shiftNww (b : Nat) : Nat := shr b 18
def shiftNnw (b : Nat) : Nat := shr b 33
def shiftNne (b : Nat) : Nat := shr b 31
def shiftNee (b : Nat) : Nat := shr b 14
def shiftSee (b : Nat) : Nat := shl b 18
def shiftSse (b : Nat) : Nat := shl b 33
def shiftSsw (b : Nat) : Nat := shl b 31
def shiftSww (b : Nat) : Nat := shl b 14

/-- `shift_in_dirs`: all single-step destinations that are on a nonzero
square and not blocked. -/
def shiftInDirs (dirs : List (Nat → Nat)) (b blocked : Nat) : List Nat :=
  (dirs.map (fun d => d b)).filter (fun x => x ≠ 0 ∧ x &&& blocked = 0)

/-- The loop of `fill_dir`, with enough fuel for any 256-bit walk: or squares
together until the walk leaves the board, hits a blocked square (excluded) or
a capturable square (included). -/
def fillDirGo (dir : Nat → Nat) (blocked capturable : Nat) :
    Nat → Nat → Nat → Nat
  | 0, acc, _ => acc
  | fuel + 1, acc, current =>
    if current ≠ 0 ∧ current &&& blocked = 0 then
      let acc := acc ||| current
      if current &&& capturable ≠ 0 then acc
      else fillDirGo dir blocked capturable fuel acc (dir current)
    else acc

/-- `fill_dir` (every direction shift kills each bit within 256 steps, so
fuel 256 is exact). -/
def fillDir (b : Nat) (dir : Nat → Nat) (blocked capturable : Nat) : Nat :=
  fillDirGo dir blocked capturable 256 0 (dir b)

/-- The loop of `step_dir`: like `fill_dir` but collecting the squares. -/
def stepDirGo (dir : Nat → Nat) (blocked capturable : Nat) :
    Nat → Nat → List Nat
  | 0, _ => []
  | fuel + 1, current =>
    if current ≠ 0 ∧ current &&& blocked = 0 then
      if current &&& capturable ≠ 0 then [current]
      else current :: stepDirGo dir blocked capturable fuel (dir current)
    else []

/-- `step_dir`. -/
def stepDir (b : Nat) (dir : Nat → Nat) (blocked capturable : Nat) : List Nat :=
  stepDirGo dir blocked capturable 256 (dir b)

/-- `fill_in_dirs`: union of the fills of several directions. -/
def fillInDirs (b : Nat) (dirs : List (Nat → Nat)) (blocked capturable : Nat) : Nat :=
  (dirs.map (fun d => fillDir b d blocked capturable)).foldl (fun acc e => acc ||| e) 0

/-- `step_in_dirs`: concatenation of the step walks of several directions. -/
def stepInDirs (b : Nat) (dirs : List (Nat → Nat)) (blocked capturable : Nat) : List Nat :=
  (dirs.map (fun d => stepDir b d blocked capturable)).flatten

/-- `KING_DIRS`. -/
def kingDirs : List (Nat → Nat) :=
  [shiftWe, shiftNw, shiftNo, shiftNe, shiftEa, shiftSe, shiftSo, shiftSw]

/-- `KNIGHT_DIRS`. -/
def knightDirs : List (Nat → Nat) :=
  [shiftNww, shiftNnw, shiftNne, shiftNee, shiftSee, shiftSse, shiftSsw, shiftSww]

/-- `ROOK_STEP_DIRS` (also the rook's fill directions). -/
def rookDirs : List (Nat → Nat) := [shiftWe, shiftNo, shiftEa, shiftSo]

/-- `BISHOP_STEP_DIRS` (also the bishop's fill directions). -/
def bishopDirs : List (Nat → Nat) := [shiftNw, shiftNe, shiftSe, shiftSw]

/-- `QUEEN_STEP_DIRS` (also the queen's fill directions). -/
def queenDirs : List (Nat → Nat) :=
  [shiftWe, shiftNw, shiftNo, shiftNe, shiftEa, shiftSe, shiftSo, shiftSw]

/-! ## En-prise masks -/

/-- `pawn_dir`: White pawns move north (decreasing index), Black south. -/
def pawnDir (c : PieceColor) : Nat → Nat :=
  match c with
  | .White => shiftNo
  | .Black => shiftSo

def kingEnPriseMask (b blocked : Nat) : Nat :=
  (shiftInDirs kingDirs b blocked).foldl (fun acc e => acc ||| e) 0

def knightEnPriseMask (b blocked : Nat) : Nat :=
  (shiftInDirs knightDirs b blocked).foldl (fun acc e => acc ||| e) 0

def rookEnPriseMask (b blocked capturable : Nat) : Nat :=
  fillInDirs b rookDirs blocked capturable

def bishopEnPriseMask (b blocked capturable : Nat) : Nat :=
  fillInDirs b bishopDirs blocked capturable

def queenEnPriseMask (b blocked capturable : Nat) : Nat :=
  fillInDirs b queenDirs blocked capturable

/-- `pawn_en_prise_mask`: the two forward-diagonal squares, each kept only
when not blocked. -/
def pawnEnPriseMask (b blocked : Nat) (c : PieceColor) : Nat :=
  let normal := pawnDir c b
  let captureOne := shiftWe normal
  let mask := if captureOne &&& blocked = 0 then captureOne else 0
  let captureTwo := shiftEa normal
  if captureTwo &&& blocked = 0 then mask ||| captureTwo else mask

/-- `Bitboards::en_prise_by_color`: union of the threat masks of every piece
of the color (the `en_prise_table` memoisation is modelled as transparent). -/
def enPriseByColor (s : Bitboards) (c : PieceColor) : Nat :=
  (pieceIterColor c).foldl (fun board p =>
    (listAt s (bitboardIdx p)).foldl (fun board idx =>
      let b := (1 <<< idx) % U256
      let blocked := blockedMaskForColor s c
      let capturable := allPiecesByColor s c.next
      board |||
        (match p.kind with
         | .King => kingEnPriseMask b blocked
         | .Queen => queenEnPriseMask b blocked capturable
         | .Rook => rookEnPriseMask b blocked capturable
         | .Bishop => bishopEnPriseMask b blocked capturable
         | .Knight => knightEnPriseMask b blocked
         | .Pawn => pawnEnPriseMask b blocked c)) board) 0

/-! ## Ply generation -/

/-- The capture-discovery loop shared by every ply generator: intersect the
destination with each enemy board in `PieceType` order, remembering the last
nonzero hit. -/
def findCapture (s : Bitboards) (c : PieceColor) (dest : Nat) : Option (Piece × Nat) :=
  (pieceIterColor c).foldl (fun acc piece =>
    let cap := dest &&& boardAt s (bitboardIdx piece)
    if cap ≠ 0 then some (piece, ctz cap) else acc) none

/-- `single_step_plys_in_dirs`: one ply per unblocked single-step
destination, with the capture discovered from the enemy boards. -/
def singleStepPlysInDirs (origin : Nat) (dirs : List (Nat → Nat))
    (blocked capturable : Nat) (s : Bitboards) (byPiece : Piece) : List Ply :=
  (shiftInDirs dirs origin blocked).map (fun board =>
    { movingPiece := byPiece
      fromSq := ctz origin
      toSq := ctz board
      capturing :=
        if board &&& capturable ≠ 0 then findCapture s byPiece.color.next board
        else none })

/-- `multi_step_plys_in_dirs`: likewise for sliding walks. -/
def multiStepPlysInDirs (origin : Nat) (dirs : List (Nat → Nat))
    (blocked capturable : Nat) (s : Bitboards) (byPiece : Piece) : List Ply :=
  (stepInDirs origin dirs blocked capturable).map (fun board =>
    { movingPiece := byPiece
      fromSq := ctz origin
      toSq := ctz board
      capturing :=
        if board &&& capturable ≠ 0 then findCapture s byPiece.color.next board
        else none })

/-- `pawn_plys_iter`, faithfully including its quirks: the double step
re-checks `normal` (not `double`) against `capturable`, and the en-passant
branch checks neither blocking nor the presence of the named victim. -/
def pawnPlysIter (origin blocked capturable : Nat) (s : Bitboards)
    (color : PieceColor) (unmovedPieces enPassant : Nat) : List Ply :=
  let bitIdx := ctz origin
  let normal := pawnDir color origin
  let pushes : List Ply :=
    if normal ≠ 0 ∧ normal &&& blocked = 0 ∧ normal &&& capturable = 0 then
      let p1 : Ply := { movingPiece := ⟨.Pawn, color⟩, fromSq := bitIdx, toSq := ctz normal }
      if origin &&& unmovedPieces ≠ 0 then
        let double := pawnDir color normal
        if double ≠ 0 ∧ double &&& blocked = 0 ∧ normal &&& capturable = 0 then
          [p1, { movingPiece := ⟨.Pawn, color⟩, fromSq := bitIdx, toSq := ctz double,
                 enPassantBoard := some normal }]
        else [p1]
      else [p1]
    else []
  pushes ++ [shiftWe, shiftEa].flatMap (fun dir =>
    let capture := dir normal
    (if capture &&& capturable ≠ 0 then
      [{ movingPiece := ⟨.Pawn, color⟩, fromSq := bitIdx, toSq := ctz capture,
         capturing := findCapture s color.next capture }]
     else []) ++
    (if enPassant ≠ 0 ∧ capture &&& enPassant ≠ 0 then
      [{ movingPiece := ⟨.Pawn, color⟩, fromSq := bitIdx, toSq := ctz capture,
         capturing := some (⟨.Pawn, color.next⟩, ctz (pawnDir color.next capture)) }]
     else []))

/-- The pseudolegal candidates one piece of kind `t` on square `sq` produces,
in the state `s` (the dispatch of `all_legal_plys_by_color`). -/
def genPlysFor (s : Bitboards) (t : PieceType) (color : PieceColor) (sq : Nat) : List Ply :=
  let board := (1 <<< sq) % U256
  let blocked := blockedMaskForColor s color
  let capturable := allPiecesByColor s color.next
  match t with
  | .King => singleStepPlysInDirs board kingDirs blocked capturable s ⟨.King, color⟩
  | .Queen => multiStepPlysInDirs board queenDirs blocked capturable s ⟨.Queen, color⟩
  | .Rook => multiStepPlysInDirs board rookDirs blocked capturable s ⟨.Rook, color⟩
  | .Bishop => multiStepPlysInDirs board bishopDirs blocked capturable s ⟨.Bishop, color⟩
  | .Knight => singleStepPlysInDirs board knightDirs blocked capturable s ⟨.Knight, color⟩
  | .Pawn => pawnPlysIter board blocked capturable s color s.unmovedPieces s.enPassant

/-! ## Make / unmake -/

/-- Remove the first occurrence of `a` (the indexed remove-and-break loop of
`make_ply`'s capture handling). -/
def removeFirst : List Nat → Nat → List Nat
  | [], _ => []
  | x :: xs, a => if x = a then xs else x :: removeFirst xs a

/-- `Bitboards::make_ply`: move the piece on its board and in its list,
remove the capture victim, apply the linked move, overwrite `enPassant` with
the ply's board (or empty), XOR-update the hash, and increment the visited
count of the new hash (recording whether it existed before). -/
def makePly (s : Bitboards) (ply : Ply) : Bitboards :=
  let mIdx := bitboardIdx ply.movingPiece
  let boards := s.boards.set mIdx
    (bbSet (bbSet (s.boards.getD mIdx 0) ply.fromSq false) ply.toSq true)
  let pieceList := s.pieceList.set mIdx
    ((s.pieceList.getD mIdx []).map (fun q => if q = ply.fromSq then ply.toSq else q))
  let boards :=
    match ply.capturing with
    | none => boards
    | some (cp, idx) =>
      let cIdx := bitboardIdx cp
      boards.set cIdx (bbSet (boards.getD cIdx 0) idx false)
  let pieceList :=
    match ply.capturing with
    | none => pieceList
    | some (cp, idx) =>
      let cIdx := bitboardIdx cp
      pieceList.set cIdx (removeFirst (pieceList.getD cIdx []) idx)
  let boards :=
    match ply.alsoMove with
    | none => boards
    | some (op, f, t) =>
      let oIdx := bitboardIdx op
      boards.set oIdx (bbSet (bbSet (boards.getD oIdx 0) f false) t true)
  let enPassant := ply.enPassantBoard.getD 0
  let zobristHash := updateHashBitboard s.zobristHash ply
  let check := (s.visitedPositions zobristHash).isSome
  let visited :=
    match s.visitedPositions zobristHash with
    | some i => tblSet s.visitedPositions zobristHash (some (i + 1))
    | none => tblSet s.visitedPositions zobristHash (some 1)
  { s with boards := boards, pieceList := pieceList, enPassant := enPassant,
           zobristHash := zobristHash, visitedPositions := visited,
           checkCache := check }

/-- `Bitboards::unmake_ply`: the inverse walk, restoring `enPassant` from
the previous ply (empty at the root), decrementing the visited count of the
current hash before the hash itself is XOR-restored. -/
def unmakePly (s : Bitboards) (ply : Ply) (previousPly : Option Ply) : Bitboards :=
  let mIdx := bitboardIdx ply.movingPiece
  let boards := s.boards.set mIdx
    (bbSet (bbSet (s.boards.getD mIdx 0) ply.toSq false) ply.fromSq true)
  let pieceList := s.pieceList.set mIdx
    ((s.pieceList.getD mIdx []).map (fun q => if q = ply.toSq then ply.fromSq else q))
  let boards :=
    match ply.capturing with
    | none => boards
    | some (cp, idx) =>
      let cIdx := bitboardIdx cp
      boards.set cIdx (bbSet (boards.getD cIdx 0) idx true)
  let pieceList :=
    match ply.capturing with
    | none => pieceList
    | some (cp, idx) =>
      let cIdx := bitboardIdx cp
      pieceList.set cIdx (pieceList.getD cIdx [] ++ [idx])
  let boards :=
    match ply.alsoMove with
    | none => boards
    | some (op, f, t) =>
      let oIdx := bitboardIdx op
      boards.set oIdx (bbSet (bbSet (boards.getD oIdx 0) t false) f true)
  let enPassant :=
    match previousPly with
    | some q => q.enPassantBoard.getD 0
    | none => 0
  let visited :=
    match s.visitedPositions s.zobristHash with
    | some i => tblSet s.visitedPositions s.zobristHash (some (i - 1))
    | none => s.visitedPositions
  let zobristHash := updateHashBitboard s.zobristHash ply
  { s with boards := boards, pieceList := pieceList, enPassant := enPassant,
           zobristHash := zobristHash, visitedPositions := visited,
           checkCache := true }

/-! ## Legality -/

/-- `Bitboards::legality_check`: no thricefold repetition, and the mover's
king (vacuously safe when absent) is not en prise to the opponent. -/
def legalityCheck (s : Bitboards) (lastMoveBy : PieceColor) : Bool :=
  let thricefold : Bool :=
    match s.visitedPositions s.zobristHash with
    | some i => decide (i ≥ 3)
    | none => false
  if thricefold then false
  else
    let kingMask := boardAt s (bitboardIdx ⟨.King, lastMoveBy⟩)
    kingMask &&& enPriseByColor s lastMoveBy.next == 0

/-- `legality_filter`: make each candidate, check, unmake with no previous
ply, and keep the candidate when the check passed.  Returns the kept plys
and the (mutated) position. -/
def legalityFilter : List Ply → Bitboards → List Ply × Bitboards
  | [], s => ([], s)
  | p :: rest, s =>
    let s1 := makePly s p
    let res := legalityCheck s1 p.movingPiece.color
    let s2 := unmakePly s1 p none
    let r := legalityFilter rest s2
    (if res then p :: r.1 else r.1, r.2)

/-- The inner loop of `all_legal_plys_by_color` over one kind's piece list:
the list length is snapshotted at loop entry, the square is re-read from the
live list at each index. -/
def processPieces (t : PieceType) (color : PieceColor) (capturesFilter : Bool) :
    Nat → Nat → Bitboards → List Ply × Bitboards
  | _, 0, s => ([], s)
  | i, fuel + 1, s =>
    let sq := (listAt s (bitboardIdx ⟨t, color⟩)).getD i 0
    let cands := genPlysFor s t color sq
    let cands := if capturesFilter then cands.filter (fun p => p.capturing.isSome) else cands
    let r := legalityFilter cands s
    let r2 := processPieces t color capturesFilter (i + 1) fuel r.2
    (r.1 ++ r2.1, r2.2)

/-- `Bitboards::all_legal_plys_by_color`: for each piece kind in order, run
every piece's pseudolegal candidates through the legality filter, collecting
the survivors. -/
def allLegalPlysByColor (s : Bitboards) (color : PieceColor) : List Ply × Bitboards :=
  pieceTypeList.foldl (fun acc t =>
    let n := (listAt acc.2 (bitboardIdx ⟨t, color⟩)).length
    let r := processPieces t color false 0 n acc.2
    (acc.1 ++ r.1, r.2)) ([], s)

/-- `Bitboards::all_legal_capturing_plys_by_color`: as above but candidates
are filtered to captures (`captures_only`) before the legality filter. -/
def allLegalCapturingPlysByColor (s : Bitboards) (color : PieceColor) : List Ply × Bitboards :=
  pieceTypeList.foldl (fun acc t =>
    let n := (listAt acc.2 (bitboardIdx ⟨t, color⟩)).length
    let r := processPieces t color true 0 n acc.2
    (acc.1 ++ r.1, r.2)) ([], s)

/-- All plys generated from the position `s` itself by the per-piece
generators of color `color` ("plys generated from P"). -/
def pseudoLegalPlysAll (s : Bitboards) (color : PieceColor) : List Ply :=
  pieceTypeList.flatMap (fun t =>
    (listAt s (bitboardIdx ⟨t, color⟩)).flatMap (fun sq => genPlysFor s t color sq))

/-! ## Evaluation and search -/

/-- `Weights`. -/
structure Weights where
  king : Int := 4000
  queen : Int := 180
  rook : Int := 100
  bishop : Int := 60
  knight : Int := 60
  pawn : Int := 20
  isolatedPawn : Int := -5
  movement : Int := 1
deriving DecidableEq, Repr, Inhabited

/-- The material weight of a piece kind. -/
def weightFor (w : Weights) : PieceType → Int
  | .King => w.king | .Queen => w.queen | .Rook => w.rook
  | .Bishop => w.bishop | .Knight => w.knight | .Pawn => w.pawn

/-- `SearchMeta`. -/
structure SearchMeta where
  currentTree : List Ply := []
  nodesVisited : Nat := 0
  weights : Weights := {}
  followPv : Bool := false
  scorePv : Bool := false

/-- `SearchMeta::last_ply_by`: color of the last ply on the search stack,
defaulting to Black (White moves first). -/
def lastPlyBy (meta : SearchMeta) : PieceColor :=
  (meta.currentTree.getLast?.getD { movingPiece := BLACK_PAWN }).movingPiece.color

/-- The `i32` bounds and saturating negation used for score sentinels. -/
def intMin : Int := -(2 ^ 31)

def intMax : Int := 2 ^ 31 - 1

/-- `i32::saturating_neg`. -/
def satNeg (x : Int) : Int := if x = intMin then intMax else -x

/-- Signed wrap-around into the `i32` range; since every intermediate `i32`
operation preserves the value modulo `2^32`, wrapping the exact integer
result once is equivalent to wrapping at each step. -/
def wrap32 (z : Int) : Int := (z + 2 ^ 31) % 2 ^ 32 - 2 ^ 31

/-- `Bitboards::evaluate` (the `evaluation_table` memoisation is modelled as
transparent): material, the isolated-pawn loop exactly as written (the loop
window never advances), and mobility from the two legal-ply generation calls,
whose mutations of the position are threaded through. -/
def evaluate (s : Bitboards) (meta : SearchMeta) : Int × Bitboards :=
  let materialScore : Int :=
    (keyValuePiecesIter s).foldl
      (fun acc pr => acc + pr.1.color.scoreSign * weightFor meta.weights pr.1.kind) 0
  let window : Nat := 0b010
  let mask : Nat := 0b111
  let isolatedPawnsCount : Int :=
    [PieceColor.White, PieceColor.Black].foldl (fun acc color =>
      let pawns := toColumnRepresentation (boardAt s (bitboardIdx ⟨.Pawn, color⟩))
      let acc := if trailingOnes16 pawns = 1 then acc + color.scoreSign else acc
      let acc := if leadingOnes16 pawns = 1 then acc + color.scoreSign else acc
      (List.range 14).foldl (fun acc _ =>
        let maskedPawns := pawns &&& mask
        if countOnes (maskedPawns ||| window) = 1 then acc + color.scoreSign else acc)
        acc) 0
  let pawnScore := meta.weights.isolatedPawn * isolatedPawnsCount
  let (whitePlys, s) := allLegalPlysByColor s .White
  let (blackPlys, s) := allLegalPlysByColor s .Black
  let moveScore : Int := (whitePlys.length : Int) - (blackPlys.length : Int)
  let score := wrap32 ((materialScore + pawnScore + meta.weights.movement * moveScore) *
    (lastPlyBy meta).next.scoreSign)
  (score, s)

/-- The capture loop of `quiescence_search`, with the β-cutoff break; the
recursive quiescence call is abstracted so the loop is structural. -/
def quiescenceLoop
    (rec : Bitboards → SearchMeta → Int → Int → Int × Bitboards × SearchMeta) :
    List Ply → Bitboards → SearchMeta → Int → Int → Int → Int × Bitboards × SearchMeta
  | [], s, meta, _, _, best => (best, s, meta)
  | ply :: rest, s, meta, alpha, beta, best =>
    let meta := { meta with nodesVisited := meta.nodesVisited + 1 }
    let s := makePly s ply
    let meta := { meta with currentTree := meta.currentTree ++ [ply] }
    let r := rec s meta (satNeg beta) (satNeg alpha)
    let score := satNeg r.1
    let s := r.2.1
    let meta := r.2.2
    let lastPly := meta.currentTree.getLast?.getD {}
    let meta := { meta with currentTree := meta.currentTree.dropLast }
    let s := unmakePly s lastPly meta.currentTree.getLast?
    let (best, alpha) :=
      if score > best then (score, if score > alpha then score else alpha)
      else (best, alpha)
    if score ≥ beta then (best, s, meta)
    else quiescenceLoop rec rest s meta alpha beta best

/-- `Bitboards::quiescence_search` (quiescence-table memoisation modelled as
transparent): stand pat on the static evaluation, then extend through legal
capturing plys only.  The fuel bounds the capture-recursion depth; every
capture removes a piece, so the 256 units of fuel supplied by `alphaBeta`
make the model exact on any position a 16×16 board can hold. -/
def quiescenceSearch : Nat → Bitboards → SearchMeta → Int → Int →
    Int × Bitboards × SearchMeta
  | 0, s, meta, _, beta =>
    let r := evaluate s meta
    let eval := r.1
    let s := r.2
    if eval ≥ beta then (beta, s, meta) else (eval, s, meta)
  | fuel + 1, s, meta, alpha, beta =>
    let r := evaluate s meta
    let eval := r.1
    let s := r.2
    if eval ≥ beta then (beta, s, meta)
    else
      let alpha := if alpha < eval then eval else alpha
      let g := allLegalCapturingPlysByColor s (lastPlyBy meta).next
      quiescenceLoop (fun s m a b => quiescenceSearch fuel s m a b)
        g.1 g.2 meta alpha beta eval

/-- The result of one `alpha_beta` node. -/
structure AbResult where
  score : Int
  bestPly : Option Ply
  state : Bitboards
  meta : SearchMeta

/-- The ply loop of `alpha_beta`, with the recursive search abstracted so
the loop is structural; the `Bool` result records an early β-cutoff return
(which skips the PV-table store). -/
def abLoop (rec : Bitboards → SearchMeta → Int → Int → AbResult) :
    List Ply → Bitboards → SearchMeta → Int → Int → Int × Option Ply →
    (Int × Option Ply) × Bitboards × SearchMeta × Bool
  | [], s, meta, _, _, best => (best, s, meta, false)
  | ply :: rest, s, meta, alpha, beta, best =>
    let meta := { meta with nodesVisited := meta.nodesVisited + 1 }
    let s := makePly s ply
    let meta := { meta with currentTree := meta.currentTree ++ [ply] }
    let r := rec s meta (satNeg beta) (satNeg alpha)
    let score := satNeg r.score
    let s := r.state
    let meta := r.meta
    let lastPly := meta.currentTree.getLast?.getD {}
    let meta := { meta with currentTree := meta.currentTree.dropLast }
    let s := unmakePly s lastPly meta.currentTree.getLast?
    let (best, alpha) :=
      if score > best.1 then ((score, some ply), if score > alpha then score else alpha)
      else (best, alpha)
    if score ≥ beta then (best, s, meta, true)
    else abLoop rec rest s meta alpha beta best

/-- `Bitboards::alpha_beta`: at depth 0, quiescence; otherwise generate the
side to move's legal plys, push the PV-table ply when following the PV, loop
make/recurse/unmake with α-raise and β-cutoff, and record the best ply in
the PV table when the loop ran to completion. -/
def alphaBeta : Nat → Bitboards → SearchMeta → Int → Int → AbResult
  | 0, s, meta, alpha, beta =>
    let r := quiescenceSearch 256 s meta alpha beta
    ⟨r.1, r.2.2.currentTree.getLast?, r.2.1, r.2.2⟩
  | depth + 1, s, meta, alpha, beta =>
    let g := allLegalPlysByColor s (lastPlyBy meta).next
    let plys := g.1
    let s := g.2
    let qm :=
      if meta.followPv then
        let meta := { meta with followPv := false }
        match s.pvTable s.zobristHash with
        | some pv => (pv :: plys, { meta with followPv := true })
        | none => (plys, meta)
      else (plys, meta)
    let r :=
      abLoop (fun s m a b => alphaBeta depth s m a b) qm.1 s qm.2 alpha beta (intMin, none)
    let best := r.1
    let s := r.2.1
    let meta := r.2.2.1
    let cut := r.2.2.2
    if cut then ⟨best.1, best.2, s, meta⟩
    else
      match best.2 with
      | some pv =>
        ⟨best.1, best.2,
          { s with pvTable := tblSet s.pvTable s.zobristHash (some { pv with pvMove := true }) },
          meta⟩
      | none => ⟨best.1, best.2, s, meta⟩

/-- `Bitboards::iterative_deepening`: repeat `alpha_beta` at depths
`1, …, depth` (no iterations when `depth ≤ 0`), setting the follow-PV flag
before each iteration; the last iteration's result is returned. -/
def iterativeDeepening (s : Bitboards) (meta : SearchMeta) (depth : Int) :
    (Int × Option Ply) × Bitboards × SearchMeta :=
  ((List.range depth.toNat).map (· + 1)).foldl
    (fun acc i =>
      let meta := { acc.2.2 with followPv := true }
      let r := alphaBeta i acc.2.1 meta intMin intMax
      ((r.score, r.bestPly), r.state, r.meta))
    ((0, none), s, meta)

/-- `Bitboards::search_next_ply`: seed the search stack with the last ply,
run iterative deepening, and return (score, best ply, nodes visited) along
with the final position state. -/
def searchNextPly (s : Bitboards) (lastPly : Option Ply) (depth : Int) (w : Weights) :
    (Int × Option Ply × Nat) × Bitboards :=
  let meta : SearchMeta :=
    { weights := w,
      currentTree := match lastPly with | some p => [p] | none => [] }
  let r := iterativeDeepening s meta depth
  ((r.1.1, r.1.2, r.2.2.nodesVisited), r.2.1)

/-- The all-empty position (the `Default` of the `Bitboards` struct), used
as the fallback when reading a fixture in a concrete statement. -/
def emptyBitboards : Bitboards :=
  { boards := List.replicate 12 0, pieceList := List.replicate 12 [], limits := 0,
    unmovedPieces := 0, enPassant := 0, zobristHash := 0,
    visitedPositions := fun _ => none, checkCache := false, pvTable := fun _ => none }

/-! ## Concrete fixtures and plys used by the claims -/

set_option maxRecDepth 2000000

/-- Fixture with two unmoved white pawns side by side (rows top to bottom:
"00" / "00" / "pp"). -/
def posPawnPair : Bitboards := (fromStr "00\n00\npp").getD emptyBitboards

/-- The generated double-step ply of the pawn on A3 (index 32): to A1,
carrying the skipped square A2 (bit 16) as the en-passant board. -/
def doubleStepPly : Ply :=
  { movingPiece := WHITE_PAWN, fromSq := 32, toSq := 0, enPassantBoard := some (2 ^ 16) }

/-- The position after the white double step: en passant is set although the
side that owns it is also the side about to be probed. -/
def posAfterDouble : Bitboards := makePly posPawnPair doubleStepPly

/-- The en-passant candidate the pawn generator now produces for White
itself: B3 takes the square behind its own companion's en-passant square,
naming a black pawn on square 32 — a square that is empty. -/
def phantomEpPly : Ply :=
  { movingPiece := WHITE_PAWN, fromSq := 33, toSq := 16,
    capturing := some (BLACK_PAWN, 32) }

/-- Fixture "P0P" / "r00": two black pawns (squares 0 and 2) and a white
rook (square 16). -/
def posRookPawns : Bitboards := (fromStr "P0P\nr00").getD emptyBitboards

/-- The generated rook capture of the black pawn on square 0. -/
def rookTakesPawn : Ply :=
  { movingPiece := WHITE_ROOK, fromSq := 16, toSq := 0,
    capturing := some (BLACK_PAWN, 0) }

/-- Fixture "N" / "0" / "p": a black knight two squares in front of an
unmoved white pawn, the square between them empty. -/
def posKnightPawn : Bitboards := (fromStr "N\n0\np").getD emptyBitboards

/-- The double-step ply the pawn generator emits onto the knight's square. -/
def knightDoubleStep : Ply :=
  { movingPiece := WHITE_PAWN, fromSq := 32, toSq := 0, enPassantBoard := some (2 ^ 16) }

/-- Fixture "0p0": a single white pawn in column 1 of a three-column row. -/
def posLonePawn : Bitboards := (fromStr "0p0").getD emptyBitboards

/-- Fixture "0" / "p": a single white pawn with one free square ahead. -/
def posPawnPush : Bitboards := (fromStr "0\np").getD emptyBitboards

/-- Discovered-check fixture (rows "00" / "B00" / "0ppN" / "00pp" / "00pk"):
a black bishop on square 16 aims along 33–50 at the white king on 67, the
white pawn on 50 shielding it; the pawns on 33 and 34 are unmoved. -/
def posCheckFixture : Bitboards :=
  (fromStr "00\nB00\n0ppN\n00pp\n00pk").getD emptyBitboards

/-- The double step of the pawn on square 33, vacating the bishop's ray and
setting en passant on the skipped square 17. -/
def checkDoubleStep : Ply :=
  { movingPiece := WHITE_PAWN, fromSq := 33, toSq := 1, enPassantBoard := some (2 ^ 17) }

/-- The position after that double step. -/
def posAfterCheckDouble : Bitboards := makePly posCheckFixture checkDoubleStep

/-- The shielding pawn's capture of the black knight on square 35, which
abandons the bishop's ray to the white king. -/
def pawnTakesKnight : Ply :=
  { movingPiece := WHITE_PAWN, fromSq := 50, toSq := 35,
    capturing := some (BLACK_KNIGHT, 35) }

/-- The six plys of the MVV-LVA ordering scenario. -/
def pawnTakesPawnPly : Ply := { movingPiece := WHITE_PAWN, capturing := some (BLACK_PAWN, 0) }

def pawnTakesQueenPly : Ply := { movingPiece := WHITE_PAWN, capturing := some (BLACK_QUEEN, 0) }

def queenTakesPawnPly : Ply := { movingPiece := WHITE_QUEEN, capturing := some (BLACK_PAWN, 0) }

def queenTakesQueenPly : Ply := { movingPiece := WHITE_QUEEN, capturing := some (BLACK_QUEEN, 0) }

def queenNoTakePly : Ply := { movingPiece := WHITE_QUEEN }

def pawnNoTakePly : Ply := { movingPiece := WHITE_PAWN }

/-! ## Refinement model of the spec's isolated-pawn term (for C5) -/

/-- The isolated-pawn count the spec describes: number of columns of the
16-bit occupancy that hold a pawn and whose neighbouring columns (within
0..15) are free. -/
def isolatedCountSpec (pawns : Nat) : Nat :=
  ((List.range 16).filter (fun c =>
    pawns.testBit c && (c == 0 || !pawns.testBit (c - 1)) &&
    (c == 15 || !pawns.testBit (c + 1)))).length

/-- Modelled from the spec (refinement model): the evaluation score with the
isolated-pawn term computed as the spec describes — material and mobility
terms as in `evaluate`. -/
def evaluateSpec (s : Bitboards) (meta : SearchMeta) : Int :=
  let materialScore : Int :=
    (keyValuePiecesIter s).foldl
      (fun acc pr => acc + pr.1.color.scoreSign * weightFor meta.weights pr.1.kind) 0
  let isolated : Int :=
    (isolatedCountSpec (toColumnRepresentation (boardAt s (bitboardIdx WHITE_PAWN))) : Int) -
    (isolatedCountSpec (toColumnRepresentation (boardAt s (bitboardIdx BLACK_PAWN))) : Int)
  let pawnScore := meta.weights.isolatedPawn * isolated
  let (whitePlys, s) := allLegalPlysByColor s .White
  let (blackPlys, _s) := allLegalPlysByColor s .Black
  let moveScore : Int := (whitePlys.length : Int) - (blackPlys.length : Int)
  wrap32 ((materialScore + pawnScore + meta.weights.movement * moveScore) *
    (lastPlyBy meta).next.scoreSign)

/-- The en-passant board recorded by the previous ply (empty at the root);
what `unmake_ply` writes back into `enPassant`. -/
def prevEp (prev : Option Ply) : Nat :=
  match prev with
  | some q => q.enPassantBoard.getD 0
  | none => 0

/-- Executable well-formedness of a position: twelve boards and lists,
boards within the 256-bit range, every list entry below 256 and matching a
set bit, every set bit listed, and pairwise-disjoint piece boards. -/
def wellFormedB (s : Bitboards) : Bool :=
  s.boards.length == 12 && s.pieceList.length == 12 &&
  (List.range 12).all (fun k => decide (s.boards.getD k 0 < U256)) &&
  pieceIterAll.all (fun p =>
    (listAt s (bitboardIdx p)).all (fun i =>
      decide (i < 256) && bbGet (boardAt s (bitboardIdx p)) i) &&
    (List.range 256).all (fun i =>
      !(bbGet (boardAt s (bitboardIdx p)) i) || decide (i ∈ listAt s (bitboardIdx p)))) &&
  pieceIterAll.all (fun p => pieceIterAll.all (fun q =>
    p == q || boardAt s (bitboardIdx p) &&& boardAt s (bitboardIdx q) == 0))

/-- Executable sanity of the en-passant state for generation by color `c`:
either empty, or a single bit on an unoccupied square whose behind-square
(one step in the opponent's walking direction) holds an opposing pawn. -/
def epOkForB (s : Bitboards) (c : PieceColor) : Bool :=
  s.enPassant == 0 ||
  ((List.range 256).any (fun i => s.enPassant == 2 ^ i) &&
   s.enPassant &&& allPiecesBB s == 0 &&
   decide (ctz (pawnDir c.next s.enPassant) < 256) &&
   bbGet (boardAt s (bitboardIdx ⟨.Pawn, c.next⟩)) (ctz (pawnDir c.next s.enPassant)))

/-- The side to move after an optional last ply (White at the root). -/
def sideToMove (lp : Option Ply) : PieceColor :=
  ((lp.getD { movingPiece := BLACK_PAWN }).movingPiece.color).next

/-- Well-formedness of a position as a proposition: twelve boards and piece
lists, boards in 256-bit range, piece lists agreeing with the boards with
entries below 256, and pairwise-disjoint boards. -/
structure WFBoards (s : Bitboards) : Prop where
  boardsLen : s.boards.length = 12
  listsLen : s.pieceList.length = 12
  bounded : ∀ k, k < 12 → boardAt s k < U256
  mem_bit : ∀ k, k < 12 → ∀ i ∈ listAt s k, (boardAt s k).testBit i = true ∧ i < 256
  bit_mem : ∀ k, k < 12 → ∀ i, i < 256 → (boardAt s k).testBit i = true → i ∈ listAt s k
  disjoint : ∀ j, j < 12 → ∀ k, k < 12 → j ≠ k → boardAt s j &&& boardAt s k = 0

/-- What the make/unmake round trip needs of a ply, relative to the boards
of the position it is applied to. -/
structure PlyFits (s : Bitboards) (p : Ply) : Prop where
  fromLt : p.fromSq < 256
  toLt : p.toSq < 256
  fromBit : (boardAt s (bitboardIdx p.movingPiece)).testBit p.fromSq = true
  toBit : (boardAt s (bitboardIdx p.movingPiece)).testBit p.toSq = false
  victim : match p.capturing with
    | none => True
    | some (cp, idx) => cp.color = p.movingPiece.color.next ∧ idx < 256 ∧
        (boardAt s (bitboardIdx cp)).testBit idx = true
  also : p.alsoMove = none

/-- The state invariant maintained by the legality filter relative to the
position it started from: boards, limits, unmoved pieces, hash and PV table
unchanged, piece lists permuted, visited counts equal, en passant either
untouched or zeroed. -/
structure FilterInv (s0 s : Bitboards) : Prop where
  boards : s.boards = s0.boards
  lists : ∀ k : Nat, (listAt s k).Perm (listAt s0 k)
  limits : s.limits = s0.limits
  unmoved : s.unmovedPieces = s0.unmovedPieces
  hash : s.zobristHash = s0.zobristHash
  visited : ∀ h : Nat, (s.visitedPositions h).getD 0 = (s0.visitedPositions h).getD 0
  ep : s.enPassant = s0.enPassant ∨ s.enPassant = 0
  pv : s.pvTable = s0.pvTable

/-- A quiet pawn push available in `posAfterDouble`, used to witness the
amended frame property of the legality filter. -/
def c9WitnessPly : Ply := { movingPiece := WHITE_PAWN, fromSq := 33, toSq := 17 }

/-! ## Helper lemmas -/

theorem natCompare_self (n : Nat) : compare n n = Ordering.eq := by
  simp [Nat.compare_def_lt]

theorem natCompare_swap (m n : Nat) : (compare m n).swap = compare n m := by
  rcases Nat.lt_trichotomy m n with h | h | h
  · have h2 : ¬ n < m := by omega
    simp [Nat.compare_def_lt, h, h2, Ordering.swap]
  · have h1 : ¬ m < n := by omega
    have h2 : ¬ n < m := by omega
    simp [Nat.compare_def_lt, h1, h2, Ordering.swap]
  · have h1 : ¬ m < n := by omega
    simp [Nat.compare_def_lt, h1, h, Ordering.swap]

/-! ## C6: the ply ordering -/

/-- C6.  The `Ord for Ply` comparison is a total comparison (reflexively
`eq`, antisymmetric under `swap`); a PV ply sorts above a non-PV ply;
with equal PV flags a capture sorts above a non-capture; two captures
compare by their MVV-LVA sorting values (higher greater); two non-captures
compare by the `PieceType` discriminant order King < Queen < Rook < Bishop <
Knight < Pawn; the MVV-LVA values of the scenario's four captures are
P×Q = 30, Q×Q = 26, P×P = 6, Q×P = 2; and stable-sorting the six scenario
plys and reversing yields exactly [P×Q, Q×Q, P×P, Q×P, P-nop, Q-nop]. -/
theorem c6_ply_ordering :
    (∀ a : Ply, plyCmp a a = .eq) ∧
    (∀ a b : Ply, (plyCmp a b).swap = plyCmp b a) ∧
    (∀ a b : Ply, plyCmp { a with pvMove := true } { b with pvMove := false } = .gt) ∧
    (∀ (a b : Ply) (cap : Piece × Nat),
      plyCmp { a with pvMove := false, capturing := some cap }
        { b with pvMove := false, capturing := none } = .gt) ∧
    (∀ (a b : Ply) (ca cb : Piece × Nat),
      plyCmp { a with pvMove := false, capturing := some ca }
        { b with pvMove := false, capturing := some cb } =
        compare ({ a with pvMove := false, capturing := some ca } : Ply).captureSortingValue
          ({ b with pvMove := false, capturing := some cb } : Ply).captureSortingValue) ∧
    (∀ a b : Ply,
      plyCmp { a with pvMove := false, capturing := none }
        { b with pvMove := false, capturing := none } =
        compare a.movingPiece.kind.toNat b.movingPiece.kind.toNat) ∧
    (pawnTakesQueenPly.captureSortingValue = 30 ∧
      queenTakesQueenPly.captureSortingValue = 26 ∧
      pawnTakesPawnPly.captureSortingValue = 6 ∧
      queenTakesPawnPly.captureSortingValue = 2) ∧
    (sortPlys [pawnTakesPawnPly, pawnTakesQueenPly, queenTakesPawnPly,
        queenTakesQueenPly, queenNoTakePly, pawnNoTakePly]).reverse =
      [pawnTakesQueenPly, queenTakesQueenPly, pawnTakesPawnPly,
        queenTakesPawnPly, pawnNoTakePly, queenNoTakePly] := by
  refine ⟨?_, ?_, ?_, ?_, ?_, ?_, by decide, by decide⟩
  · rintro ⟨mp, f, t, cap, al, ep, pv⟩
    cases pv <;> rcases cap with _ | c <;> simp [plyCmp, natCompare_self]
  · rintro ⟨mpa, fa, ta, capa, ala, epa, pva⟩ ⟨mpb, fb, tb, capb, alb, epb, pvb⟩
    cases pva <;> cases pvb <;> rcases capa with _ | ca <;> rcases capb with _ | cb <;>
      simp only [plyCmp] <;> first | rfl | exact natCompare_swap _ _
  · intro a b; rcases a.capturing with _ | ca <;> simp [plyCmp]
  · intro a b cap; simp [plyCmp]
  · intro a b ca cb; simp [plyCmp]
  · intro a b; simp [plyCmp]

/-! ## C1 counterexample, C2–C5 code-bug witnesses, C7/C9 counterexamples -/

/-- C1 (counterexample).  The make/unmake round trip does not restore the
position exactly.  (i) On "P0P"/"r00", the generated rook capture of the
black pawn on square 0 brings the black-pawn piece list back as [2, 0]
instead of [0, 2]: the victim's entry is removed in place but re-appended at
the tail, so the lists are not restored bit-for-bit as sequences.  (ii) After
a generated white double step, White's own en-passant pseudo-capture names a
victim square that is empty; unmaking it materialises a black pawn there, so
even the piece boards are not restored. -/
theorem c1_round_trip_counterexample :
    (rookTakesPawn ∈ pseudoLegalPlysAll posRookPawns PieceColor.White ∧
      (unmakePly (makePly posRookPawns rookTakesPawn) rookTakesPawn none).pieceList ≠
        posRookPawns.pieceList ∧
      (unmakePly (makePly posRookPawns rookTakesPawn) rookTakesPawn
          none).pieceList.getD (bitboardIdx BLACK_PAWN) [] = [2, 0] ∧
      posRookPawns.pieceList.getD (bitboardIdx BLACK_PAWN) [] = [0, 2]) ∧
    (doubleStepPly ∈ (allLegalPlysByColor posPawnPair PieceColor.White).1 ∧
      phantomEpPly ∈ pseudoLegalPlysAll posAfterDouble PieceColor.White ∧
      (unmakePly (makePly posAfterDouble phantomEpPly) phantomEpPly none).boards ≠
        posAfterDouble.boards) := by
  exact ⟨⟨by decide, by decide, by decide, by decide⟩, by decide, by decide, by decide⟩

/-- C2 (code bug).  `all_legal_plys_by_color` can emit a ply after which the
mover's king is attacked.  On the discovered-check fixture, the double step
on square 33 is generated and legal; in the resulting position the filter's
own make/unmake of White's bogus en-passant candidate resurrects a phantom
black pawn on square 33, which then shields the king during the check of the
pawn capture 50×35 — a ply that, applied to the true position, leaves the
white king on square 67 attacked by the bishop on square 16. -/
theorem c2_legality_code_bug :
    checkDoubleStep ∈ (allLegalPlysByColor posCheckFixture PieceColor.White).1 ∧
    pawnTakesKnight ∈ (allLegalPlysByColor posAfterCheckDouble PieceColor.White).1 ∧
    boardAt posAfterCheckDouble (bitboardIdx WHITE_KING) ≠ 0 ∧
    boardAt (makePly posAfterCheckDouble pawnTakesKnight) (bitboardIdx WHITE_KING) &&&
      enPriseByColor (makePly posAfterCheckDouble pawnTakesKnight) PieceColor.Black ≠ 0 := by
  exact ⟨by decide, by decide, by decide, by decide⟩

/-- C3 (code bug).  The piece boards do not stay pairwise disjoint: from the
fixture "N"/"0"/"p", the legal-ply generator emits the pawn double step onto
the square occupied by the black knight (no capture recorded), and after
making it the white-pawn and black-knight boards intersect. -/
theorem c3_disjointness_code_bug :
    knightDoubleStep ∈ (allLegalPlysByColor posKnightPawn PieceColor.White).1 ∧
    boardAt (makePly posKnightPawn knightDoubleStep) (bitboardIdx WHITE_PAWN) &&&
      boardAt (makePly posKnightPawn knightDoubleStep) (bitboardIdx BLACK_KNIGHT) ≠ 0 := by
  exact ⟨by decide, by decide⟩

/-- C4 (code bug).  The pawn generator emits a double-step ply although the
square two steps ahead is occupied by an enemy piece: the double-step guard
re-checks `normal` against `capturable` instead of `double`.  On the fixture
"N"/"0"/"p" the emitted double step lands on the black knight's square while
carrying the skipped square as its en-passant board. -/
theorem c4_double_step_code_bug :
    knightDoubleStep ∈ pseudoLegalPlysAll posKnightPawn PieceColor.White ∧
    knightDoubleStep.enPassantBoard = some (2 ^ 16) ∧
    bbGet (allPiecesBB posKnightPawn) knightDoubleStep.toSq = true ∧
    bbGet (boardAt posKnightPawn (bitboardIdx BLACK_KNIGHT)) knightDoubleStep.toSq = true := by
  exact ⟨by decide, by decide, by decide, by decide⟩

/-- C5 (code bug).  The isolated-pawn loop of `evaluate` neither shifts its
window nor checks that the centre column holds a pawn, so it does not count
isolated pawns as described.  With a single white pawn in column 1 the spec's
counting gives one isolated white pawn and score 15 (= 20 material − 5), but
`evaluate` returns 20: its fourteen window tests contribute +14 for White and
+14 for the pawnless Black, cancelling to zero. -/
theorem c5_isolated_pawns_code_bug :
    (evaluate posLonePawn {}).1 = 20 ∧
    evaluateSpec posLonePawn {} = 15 ∧
    isolatedCountSpec (toColumnRepresentation (boardAt posLonePawn (bitboardIdx WHITE_PAWN))) = 1 ∧
    isolatedCountSpec (toColumnRepresentation (boardAt posLonePawn (bitboardIdx BLACK_PAWN))) = 0 := by
  exact ⟨by decide, by decide, by decide, by decide⟩

/-- C7 (counterexample).  `search_next_ply` can return a best ply of `none`
although the side to move has legal plys: with `maxDepth = 0` the
iterative-deepening loop never runs, so on "0"/"p" — where White has a legal
pawn push — the search still returns `(0, none, 0)`. -/
theorem c7_search_none_counterexample :
    (allLegalPlysByColor posPawnPush PieceColor.White).1 ≠ [] ∧
    (searchNextPly posPawnPush none 0 {}).1.2.1 = none := by
  exact ⟨by decide, by decide⟩

/-- C9 (counterexample).  Generating White's legal plys on the position after
the white double step zeroes `enPassant` and restores the Zobrist hash, but
does NOT restore the piece boards: the filter's unmake of White's bogus
en-passant candidate leaves a phantom black pawn behind. -/
theorem c9_filter_frame_counterexample :
    posAfterDouble.enPassant ≠ 0 ∧
    pseudoLegalPlysAll posAfterDouble PieceColor.White ≠ [] ∧
    (allLegalPlysByColor posAfterDouble PieceColor.White).2.enPassant = 0 ∧
    (allLegalPlysByColor posAfterDouble PieceColor.White).2.zobristHash =
      posAfterDouble.zobristHash ∧
    (allLegalPlysByColor posAfterDouble PieceColor.White).2.boards ≠
      posAfterDouble.boards := by
  exact ⟨by decide, by decide, by decide, by decide, by decide⟩

/-! ## C8: Zobrist determinism -/

/-- C8.  Position construction is deterministic: two `from_str` parses of
the same fixture produce identical Zobrist hashes (the Zobrist table is a
fixed function of the constant seed, and the initial hash is a pure function
of the parsed placement). -/
theorem c8_zobrist_determinism (fix : String) (P Q : Bitboards)
    (hP : fromStr fix = some P) (hQ : fromStr fix = some Q) :
    P.zobristHash = Q.zobristHash := by
  rw [hP] at hQ
  injection hQ with h
  rw [h]

/-- Witness for C8 at the fixture "0"/"p". -/
theorem c8_zobrist_determinism_witness :
    posPawnPush.zobristHash = ((fromStr "0\np").getD emptyBitboards).zobristHash :=
  c8_zobrist_determinism "0\np" posPawnPush ((fromStr "0\np").getD emptyBitboards) rfl rfl

/-! ## C10: non-positive search depth -/

/-- C10.  For every position and every depth ≤ 0, `search_next_ply` returns
score 0, no best ply and zero nodes visited, and leaves the position state
untouched: the iterative-deepening loop over depths 1..=depth never runs. -/
theorem c10_depth_nonpositive (s : Bitboards) (lp : Option Ply) (d : Int)
    (w : Weights) (hd : d ≤ 0) :
    searchNextPly s lp d w = ((0, none, 0), s) := by
  have h0 : d.toNat = 0 := Int.toNat_of_nonpos hd
  simp [searchNextPly, iterativeDeepening, h0]

/-- Witness for C10 at "0"/"p" with depth 0. -/
theorem c10_depth_nonpositive_witness :
    searchNextPly posPawnPush none 0 {} = ((0, none, 0), posPawnPush) :=
  c10_depth_nonpositive posPawnPush none 0 {} (by decide)

/-! ## Bit-level lemmas about `bbSet`/`bbGet` -/

theorem testBit_mask256 (j : Nat) : mask256.testBit j = decide (j < 256) := by
  have h : mask256 = 2 ^ 256 - 1 := rfl
  rw [h, Nat.testBit_two_pow_sub_one]

theorem bbGet_eq_testBit (b i : Nat) : bbGet b i = b.testBit i := by
  unfold bbGet
  rw [Nat.one_shiftLeft, Nat.and_two_pow]
  cases h : b.testBit i
  · simp
  · simp [(Nat.two_pow_pos i).ne']

theorem testBit_bbSet (b i j : Nat) (v : Bool) (hb : b < U256) (hi : i < 256) :
    (bbSet b i v).testBit j = if j = i then v else b.testBit j := by
  unfold bbSet bbNot
  rcases eq_or_ne j i with rfl | hne
  · cases v <;>
      simp [Nat.testBit_or, Nat.testBit_and, Nat.testBit_xor, Nat.one_shiftLeft,
        Nat.testBit_two_pow, testBit_mask256, hi, Nat.testBit_shiftLeft]
  · have hout : 256 ≤ j → b.testBit j = false := fun h =>
      Nat.testBit_eq_false_of_lt (lt_of_lt_of_le hb (Nat.pow_le_pow_right (by omega) h))
    rw [if_neg hne]
    rcases Nat.lt_or_ge j 256 with h | h
    · cases v <;>
        simp [Nat.testBit_or, Nat.testBit_and, Nat.testBit_xor, Nat.one_shiftLeft,
          Nat.zero_shiftLeft, Nat.testBit_two_pow, testBit_mask256, h, hne, Ne.symm hne]
    · have hbj := hout h
      cases v <;>
        simp [Nat.testBit_or, Nat.testBit_and, Nat.testBit_xor, Nat.one_shiftLeft,
          Nat.zero_shiftLeft, Nat.testBit_two_pow, testBit_mask256, hne, Ne.symm hne,
          Nat.not_lt.mpr h, hbj]

theorem bbSet_lt (b i : Nat) (v : Bool) (hi : i < 256) : bbSet b i v < U256 := by
  unfold bbSet bbNot
  have hm : mask256 < U256 := by unfold mask256 U256; omega
  have h1 : (1 <<< i) < U256 := by
    rw [Nat.one_shiftLeft]
    exact Nat.pow_lt_pow_right (by omega) hi
  refine Nat.or_lt_two_pow (Nat.and_lt_two_pow _ (Nat.xor_lt_two_pow h1 hm)) ?_
  cases v
  · simp [Nat.zero_shiftLeft, Nat.pos_pow_of_pos 256 (by omega : 0 < 2)]
  · simpa [Nat.one_shiftLeft] using Nat.pow_lt_pow_right (by omega : 1 < 2) hi

/-- The board round trip of a non-captured mover: clear `f`, set `t`, then
clear `t`, set `f` restores the board when `f` was set and `t` clear. -/
theorem bbSet_move_roundtrip (b f t : Nat) (hb : b < U256) (hf : f < 256) (ht : t < 256)
    (hfb : b.testBit f = true) (htb : b.testBit t = false) :
    bbSet (bbSet (bbSet (bbSet b f false) t true) t false) f true = b := by
  have h1 : bbSet b f false < U256 := bbSet_lt _ _ _ hf
  have h2 : bbSet (bbSet b f false) t true < U256 := bbSet_lt _ _ _ ht
  have h3 : bbSet (bbSet (bbSet b f false) t true) t false < U256 := bbSet_lt _ _ _ ht
  apply Nat.eq_of_testBit_eq
  intro j
  rw [testBit_bbSet _ _ _ _ h3 hf, testBit_bbSet _ _ _ _ h2 ht,
    testBit_bbSet _ _ _ _ h1 ht, testBit_bbSet _ _ _ _ hb hf]
  rcases eq_or_ne j f with rfl | hjf
  · simp [hfb]
  · rcases eq_or_ne j t with rfl | hjt
    · simp [hjf, htb]
    · simp [hjf, hjt]

/-- The board round trip of the capture victim: clear then set restores. -/
theorem bbSet_victim_roundtrip (b i : Nat) (hb : b < U256) (hi : i < 256)
    (hib : b.testBit i = true) :
    bbSet (bbSet b i false) i true = b := by
  have h1 : bbSet b i false < U256 := bbSet_lt _ _ _ hi
  apply Nat.eq_of_testBit_eq
  intro j
  rw [testBit_bbSet _ _ _ _ h1 hi, testBit_bbSet _ _ _ _ hb hi]
  rcases eq_or_ne j i with rfl | hji
  · simp [hib]
  · simp [hji]

/-! ## List lemmas for the piece-list round trip -/

theorem map_replace_roundtrip (l : List Nat) (f t : Nat) (ht : t ∉ l) :
    (l.map (fun q => if q = f then t else q)).map (fun q => if q = t then f else q) = l := by
  induction l with
  | nil => rfl
  | cons x xs ih =>
    have hxt : x ≠ t := fun h => ht (by simp [h])
    have hxs : t ∉ xs := fun h => ht (List.mem_cons_of_mem _ h)
    simp only [List.map_cons, ih hxs]
    by_cases hxf : x = f
    · subst hxf; simp
    · simp [hxf, hxt]

theorem removeFirst_append_perm (l : List Nat) (a : Nat) (ha : a ∈ l) :
    (removeFirst l a ++ [a]).Perm l := by
  induction l with
  | nil => cases ha
  | cons x xs ih =>
    by_cases hx : x = a
    · subst hx
      simp only [removeFirst, if_pos rfl]
      exact List.perm_append_singleton x xs
    · have hmem : a ∈ xs := by
        rcases List.mem_cons.mp ha with h | h
        · exact absurd h.symm hx
        · exact h
      simpa [removeFirst, hx] using (ih hmem).cons x

theorem getD_set_self {α : Type} (l : List α) (i : Nat) (x d : α) (h : i < l.length) :
    (l.set i x).getD i d = x := by
  rw [List.getD_eq_getElem?_getD, List.getElem?_set_self h]
  rfl

theorem getD_set_ne {α : Type} (l : List α) (i j : Nat) (x d : α) (h : i ≠ j) :
    (l.set i x).getD j d = l.getD j d := by
  rw [List.getD_eq_getElem?_getD, List.getElem?_set_ne h, ← List.getD_eq_getElem?_getD]

/-! ## Zobrist involution and visited-count lemmas -/

theorem updateHash_involution (h : Nat) (ply : Ply) :
    updateHashBitboard (updateHashBitboard h ply) ply = h := by
  have cancel : ∀ x y : Nat, (x ^^^ y) ^^^ y = x := fun x y => by
    rw [Nat.xor_assoc, Nat.xor_self, Nat.xor_zero]
  unfold updateHashBitboard
  rcases hcap : ply.capturing with _ | ⟨cp, idx⟩
  · simp only [hcap]
    apply Nat.eq_of_testBit_eq
    intro j
    simp only [Nat.testBit_xor]
    generalize h.testBit j = x
    generalize (zobristTable (pieceKeyIndex ply.movingPiece ply.fromSq)).testBit j = a
    generalize (zobristTable (pieceKeyIndex ply.movingPiece ply.toSq)).testBit j = b
    generalize (zobristTable changePlayerIndex).testBit j = d
    cases x <;> cases a <;> cases b <;> cases d <;> rfl
  · simp only [hcap]
    apply Nat.eq_of_testBit_eq
    intro j
    simp only [Nat.testBit_xor]
    generalize h.testBit j = x
    generalize (zobristTable (pieceKeyIndex ply.movingPiece ply.fromSq)).testBit j = a
    generalize (zobristTable (pieceKeyIndex ply.movingPiece ply.toSq)).testBit j = b
    generalize (zobristTable (pieceKeyIndex cp idx)).testBit j = c
    generalize (zobristTable changePlayerIndex).testBit j = d
    cases x <;> cases a <;> cases b <;> cases c <;> cases d <;> rfl

/-! ## Index arithmetic for the twelve boards -/

theorem pieceTypeToNat_lt (t : PieceType) : t.toNat < 6 := by
  cases t <;> simp [PieceType.toNat]

theorem bitboardIdx_lt (p : Piece) : bitboardIdx p < 12 := by
  obtain ⟨k, c⟩ := p
  have hk : k.toNat < 6 := pieceTypeToNat_lt k
  cases c <;> simp [bitboardIdx, PieceColor.toNat] <;> omega

theorem bitboardIdx_ne_of_color_ne (p q : Piece) (h : p.color ≠ q.color) :
    bitboardIdx p ≠ bitboardIdx q := by
  obtain ⟨pk, pc⟩ := p
  obtain ⟨qk, qc⟩ := q
  have hp : pk.toNat < 6 := pieceTypeToNat_lt pk
  have hq : qk.toNat < 6 := pieceTypeToNat_lt qk
  cases pc <;> cases qc <;> simp_all [bitboardIdx, PieceColor.toNat] <;> omega

theorem next_ne_self (c : PieceColor) : c.next ≠ c := by
  cases c <;> decide

theorem set_getD_refl {α : Type} (l : List α) (m : Nat) (d : α) (h : m < l.length) :
    l.set m (l.getD m d) = l := by
  apply List.ext_getElem?
  intro j
  rcases eq_or_ne m j with rfl | hj
  · rw [List.getElem?_set_self h, List.getD_eq_getElem?_getD, List.getElem?_eq_getElem h]
    rfl
  · rw [List.getElem?_set_ne hj]

/-! ## The make/unmake round trip, field by field -/

theorem unmake_make_boards (s : Bitboards) (p : Ply) (prev : Option Ply)
    (hwf : WFBoards s) (hfits : PlyFits s p) :
    (unmakePly (makePly s p) p prev).boards = s.boards := by
  have hm12 : bitboardIdx p.movingPiece < 12 := bitboardIdx_lt _
  have hmlen : bitboardIdx p.movingPiece < s.boards.length := by
    rw [hwf.boardsLen]; exact hm12
  have hmove : bbSet (bbSet (bbSet (bbSet (s.boards.getD (bitboardIdx p.movingPiece) 0)
      p.fromSq false) p.toSq true) p.toSq false) p.fromSq true
      = s.boards.getD (bitboardIdx p.movingPiece) 0 :=
    bbSet_move_roundtrip _ _ _ (hwf.bounded _ hm12) hfits.fromLt hfits.toLt
      hfits.fromBit hfits.toBit
  have hv := hfits.victim
  rcases hcap : p.capturing with _ | ⟨cp, idx⟩
  · simp only [makePly, unmakePly, hcap, hfits.also]
    rw [getD_set_self _ _ _ _ hmlen, hmove, List.set_set, set_getD_refl _ _ _ hmlen]
  · rw [hcap] at hv
    obtain ⟨hcol, hidxlt, hidxbit⟩ := hv
    have hcm : bitboardIdx cp ≠ bitboardIdx p.movingPiece := by
      apply bitboardIdx_ne_of_color_ne
      rw [hcol]
      exact next_ne_self _
    have hclen : bitboardIdx cp < s.boards.length := by
      rw [hwf.boardsLen]; exact bitboardIdx_lt _
    have hvic : bbSet (bbSet (s.boards.getD (bitboardIdx cp) 0) idx false) idx true
        = s.boards.getD (bitboardIdx cp) 0 :=
      bbSet_victim_roundtrip _ _ (hwf.bounded _ (bitboardIdx_lt _)) hidxlt hidxbit
    simp only [makePly, unmakePly, hcap, hfits.also]
    rw [getD_set_ne _ _ _ _ _ (Ne.symm hcm)]
    rw [getD_set_ne _ _ _ _ _ hcm, getD_set_self _ _ _ _ hmlen, hmove]
    rw [getD_set_ne _ _ _ _ _ (Ne.symm hcm),
        getD_set_self _ _ _ _ (by simpa using hclen), hvic]
    apply List.ext_getElem?
    intro j
    rcases eq_or_ne j (bitboardIdx cp) with rfl | hjc
    · rw [List.getElem?_set_self (by simpa using hclen)]
      simp [List.getElem?_eq_getElem hclen, List.getD_eq_getElem?_getD]
    · rw [List.getElem?_set_ne (Ne.symm hjc)]
      rcases eq_or_ne j (bitboardIdx p.movingPiece) with rfl | hjm
      · rw [List.getElem?_set_self (by simpa using hmlen)]
        simp [List.getElem?_eq_getElem hmlen, List.getD_eq_getElem?_getD]
      · rw [List.getElem?_set_ne (Ne.symm hjm), List.getElem?_set_ne (Ne.symm hjc),
            List.getElem?_set_ne (Ne.symm hjm)]

theorem unmake_make_lens (s : Bitboards) (p : Ply) (prev : Option Ply) :
    (unmakePly (makePly s p) p prev).boards.length = s.boards.length ∧
    (unmakePly (makePly s p) p prev).pieceList.length = s.pieceList.length := by
  rcases hcap : p.capturing with _ | ⟨cp, idx⟩ <;>
    rcases halso : p.alsoMove with _ | ⟨op, f, t⟩ <;>
      simp [makePly, unmakePly, hcap, halso]

theorem unmake_make_pieceList (s : Bitboards) (p : Ply) (prev : Option Ply)
    (hwf : WFBoards s) (hfits : PlyFits s p) :
    ∀ k, (listAt (unmakePly (makePly s p) p prev) k).Perm (listAt s k) := by
  have hm12 : bitboardIdx p.movingPiece < 12 := bitboardIdx_lt _
  have hmlen : bitboardIdx p.movingPiece < s.pieceList.length := by
    rw [hwf.listsLen]; exact hm12
  have ht : p.toSq ∉ listAt s (bitboardIdx p.movingPiece) := by
    intro hmem
    have h2 := (hwf.mem_bit _ hm12 _ hmem).1
    rw [hfits.toBit] at h2
    exact Bool.noConfusion h2
  have hmap : ((s.pieceList.getD (bitboardIdx p.movingPiece) []).map
        (fun q => if q = p.fromSq then p.toSq else q)).map
        (fun q => if q = p.toSq then p.fromSq else q)
      = s.pieceList.getD (bitboardIdx p.movingPiece) [] :=
    map_replace_roundtrip _ _ _ ht
  have hv := hfits.victim
  rcases hcap : p.capturing with _ | ⟨cp, idx⟩
  · intro k
    simp only [makePly, unmakePly, hcap, hfits.also, listAt]
    rw [getD_set_self _ _ _ _ hmlen, hmap, List.set_set, set_getD_refl _ _ _ hmlen]
  · rw [hcap] at hv
    obtain ⟨hcol, hidxlt, hidxbit⟩ := hv
    have hcm : bitboardIdx cp ≠ bitboardIdx p.movingPiece := by
      apply bitboardIdx_ne_of_color_ne
      rw [hcol]
      exact next_ne_self _
    have hclen : bitboardIdx cp < s.pieceList.length := by
      rw [hwf.listsLen]; exact bitboardIdx_lt _
    have hidxmem : idx ∈ s.pieceList.getD (bitboardIdx cp) [] :=
      hwf.bit_mem _ (bitboardIdx_lt _) idx hidxlt hidxbit
    intro k
    simp only [makePly, unmakePly, hcap, hfits.also, listAt]
    rw [getD_set_ne _ _ _ _ _ (Ne.symm hcm)]
    rw [getD_set_ne _ _ _ _ _ hcm, getD_set_self _ _ _ _ hmlen, hmap]
    rw [getD_set_ne _ _ _ _ _ (Ne.symm hcm),
        getD_set_self _ _ _ _ (by simpa using hclen)]
    rcases eq_or_ne k (bitboardIdx cp) with rfl | hkc
    · rw [getD_set_self _ _ _ _ (by simpa using hclen)]
      exact removeFirst_append_perm _ _ hidxmem
    · rw [getD_set_ne _ _ _ _ _ (Ne.symm hkc)]
      rcases eq_or_ne k (bitboardIdx p.movingPiece) with rfl | hkm
      · rw [getD_set_self _ _ _ _ (by simpa using hmlen)]
      · rw [getD_set_ne _ _ _ _ _ (Ne.symm hkm), getD_set_ne _ _ _ _ _ (Ne.symm hkc),
            getD_set_ne _ _ _ _ _ (Ne.symm hkm)]

theorem unmake_make_limits (s : Bitboards) (p : Ply) (prev : Option Ply) :
    (unmakePly (makePly s p) p prev).limits = s.limits := rfl

theorem unmake_make_unmoved (s : Bitboards) (p : Ply) (prev : Option Ply) :
    (unmakePly (makePly s p) p prev).unmovedPieces = s.unmovedPieces := rfl

theorem unmake_make_pv (s : Bitboards) (p : Ply) (prev : Option Ply) :
    (unmakePly (makePly s p) p prev).pvTable = s.pvTable := rfl

theorem unmake_make_ep (s : Bitboards) (p : Ply) (prev : Option Ply) :
    (unmakePly (makePly s p) p prev).enPassant = prevEp prev := by
  cases prev <;> rfl

theorem unmake_make_hash (s : Bitboards) (p : Ply) (prev : Option Ply) :
    (unmakePly (makePly s p) p prev).zobristHash = s.zobristHash :=
  updateHash_involution s.zobristHash p

theorem unmake_make_visited (s : Bitboards) (p : Ply) (prev : Option Ply) :
    ∀ h, ((unmakePly (makePly s p) p prev).visitedPositions h).getD 0
      = (s.visitedPositions h).getD 0 := by
  intro h
  rcases eq_or_ne h (updateHashBitboard s.zobristHash p) with rfl | hne
  · rcases hv : s.visitedPositions (updateHashBitboard s.zobristHash p) with _ | i <;>
      simp [makePly, unmakePly, hv, tblSet]
  · rcases hv : s.visitedPositions (updateHashBitboard s.zobristHash p) with _ | i <;>
      simp [makePly, unmakePly, hv, tblSet, hne]

theorem makePly_unmakePly_restore (s : Bitboards) (p : Ply) (prev : Option Ply)
    (hwf : WFBoards s) (hfits : PlyFits s p) :
    (unmakePly (makePly s p) p prev).boards = s.boards ∧
    (∀ k, (listAt (unmakePly (makePly s p) p prev) k).Perm (listAt s k)) ∧
    (unmakePly (makePly s p) p prev).pieceList.length = s.pieceList.length ∧
    (unmakePly (makePly s p) p prev).limits = s.limits ∧
    (unmakePly (makePly s p) p prev).unmovedPieces = s.unmovedPieces ∧
    (unmakePly (makePly s p) p prev).enPassant = prevEp prev ∧
    (unmakePly (makePly s p) p prev).zobristHash = s.zobristHash ∧
    (∀ h, ((unmakePly (makePly s p) p prev).visitedPositions h).getD 0
      = (s.visitedPositions h).getD 0) ∧
    (unmakePly (makePly s p) p prev).pvTable = s.pvTable :=
  ⟨unmake_make_boards s p prev hwf hfits, unmake_make_pieceList s p prev hwf hfits,
   (unmake_make_lens s p prev).2, unmake_make_limits s p prev,
   unmake_make_unmoved s p prev, unmake_make_ep s p prev,
   unmake_make_hash s p prev, unmake_make_visited s p prev, unmake_make_pv s p prev⟩

/-! ## Transfer of well-formedness and fit across a round trip -/

theorem boardAt_eq_of_boards_eq (s2 s : Bitboards) (hb : s2.boards = s.boards) (i : Nat) :
    boardAt s2 i = boardAt s i := by
  simp [boardAt, hb]

theorem wf_of_restore (s s2 : Bitboards) (hb : s2.boards = s.boards)
    (hl : ∀ k, (listAt s2 k).Perm (listAt s k))
    (hlen : s2.pieceList.length = s.pieceList.length)
    (hwf : WFBoards s) : WFBoards s2 where
  boardsLen := by rw [hb, hwf.boardsLen]
  listsLen := by rw [hlen, hwf.listsLen]
  bounded := fun k hk => by
    rw [boardAt_eq_of_boards_eq s2 s hb]
    exact hwf.bounded k hk
  mem_bit := fun k hk i hi => by
    rw [boardAt_eq_of_boards_eq s2 s hb]
    exact hwf.mem_bit k hk i ((hl k).mem_iff.mp hi)
  bit_mem := fun k hk i hi hbit => by
    rw [(hl k).mem_iff]
    exact hwf.bit_mem k hk i hi (by rw [← boardAt_eq_of_boards_eq s2 s hb]; exact hbit)
  disjoint := fun j hj k hk hjk => by
    rw [boardAt_eq_of_boards_eq s2 s hb, boardAt_eq_of_boards_eq s2 s hb]
    exact hwf.disjoint j hj k hk hjk

theorem fits_of_boards_eq (s s2 : Bitboards) (p : Ply) (hb : s2.boards = s.boards)
    (h : PlyFits s p) : PlyFits s2 p where
  fromLt := h.fromLt
  toLt := h.toLt
  fromBit := by rw [boardAt_eq_of_boards_eq s2 s hb]; exact h.fromBit
  toBit := by rw [boardAt_eq_of_boards_eq s2 s hb]; exact h.toBit
  victim := by
    have hv := h.victim
    rcases hcap : p.capturing with _ | ⟨cp, idx⟩
    · rw [hcap] at hv
      exact hv
    · rw [hcap] at hv
      obtain ⟨h1, h2, h3⟩ := hv
      exact ⟨h1, h2, by rw [boardAt_eq_of_boards_eq s2 s hb]; exact h3⟩
  also := h.also

/-! ## The legality filter preserves the position up to bookkeeping -/

theorem legalityFilter_restore (cands : List Ply) :
    ∀ s : Bitboards, WFBoards s → (∀ p ∈ cands, PlyFits s p) →
    ((legalityFilter cands s).2.boards = s.boards) ∧
    (∀ k, (listAt (legalityFilter cands s).2 k).Perm (listAt s k)) ∧
    ((legalityFilter cands s).2.pieceList.length = s.pieceList.length) ∧
    ((legalityFilter cands s).2.limits = s.limits) ∧
    ((legalityFilter cands s).2.unmovedPieces = s.unmovedPieces) ∧
    ((legalityFilter cands s).2.zobristHash = s.zobristHash) ∧
    (∀ h, ((legalityFilter cands s).2.visitedPositions h).getD 0
      = (s.visitedPositions h).getD 0) ∧
    ((legalityFilter cands s).2.pvTable = s.pvTable) ∧
    ((legalityFilter cands s).2.enPassant = if cands.isEmpty then s.enPassant else 0) := by
  induction cands with
  | nil =>
    intro s hwf hfit
    simp [legalityFilter]
  | cons p rest ih =>
    intro s hwf hfit
    have hfp : PlyFits s p := hfit p (by simp)
    obtain ⟨hb, hl, hlen, hlim, hun, hepr, hhash, hvis, hpv⟩ :=
      makePly_unmakePly_restore s p none hwf hfp
    have hep : (unmakePly (makePly s p) p none).enPassant = 0 := hepr
    have hwf2 : WFBoards (unmakePly (makePly s p) p none) :=
      wf_of_restore s _ hb hl hlen hwf
    have hfit2 : ∀ q ∈ rest, PlyFits (unmakePly (makePly s p) p none) q := fun q hq =>
      fits_of_boards_eq s _ q hb (hfit q (by simp [hq]))
    obtain ⟨ib, il, ilen, ilim, iun, ihash, ivis, ipv, iep⟩ :=
      ih (unmakePly (makePly s p) p none) hwf2 hfit2
    simp only [legalityFilter]
    rcases hlf : legalityFilter rest (unmakePly (makePly s p) p none) with ⟨keep, s3⟩
    rw [hlf] at ib il ilen ilim iun ihash ivis ipv iep
    refine ⟨?_, ?_, ?_, ?_, ?_, ?_, ?_, ?_, ?_⟩
    · simpa [hlf, hb] using ib
    · intro k
      simp only [hlf]
      exact (il k).trans (hl k)
    · simpa [hlf, hlen] using ilen
    · simpa [hlf, hlim] using ilim
    · simpa [hlf, hun] using iun
    · simpa [hlf, hhash] using ihash
    · intro h
      simp only [hlf]
      exact (ivis h).trans (hvis h)
    · simpa [hlf, hpv] using ipv
    · have iep2 : s3.enPassant
          = if rest.isEmpty = true then (unmakePly (makePly s p) p none).enPassant else 0 :=
        iep
      rw [iep2, hep]
      simp

/-! ## C1 and C9, amended -/

/-- C1 (amended).  For a well-formed position and a ply whose moving piece
stands on its origin with a free destination, whose named capture victim is
actually present, with no linked move, and whose previous ply carries the
position's current en-passant board, make followed by unmake restores the
boards, limits, unmoved pieces, en passant, zobrist hash and visited counts
exactly, and the piece lists as multisets (the victim's entry moves to the
tail of its list, so the lists are not restored as sequences; and an
en-passant candidate whose named victim square is empty corrupts the boards
— see the counterexample). -/
theorem c1_round_trip_amended (s : Bitboards) (p : Ply) (prev : Option Ply)
    (hwf : WFBoards s) (hfits : PlyFits s p) (hep : s.enPassant = prevEp prev) :
    (unmakePly (makePly s p) p prev).boards = s.boards ∧
    (∀ k, (listAt (unmakePly (makePly s p) p prev) k).Perm (listAt s k)) ∧
    (unmakePly (makePly s p) p prev).limits = s.limits ∧
    (unmakePly (makePly s p) p prev).unmovedPieces = s.unmovedPieces ∧
    (unmakePly (makePly s p) p prev).enPassant = s.enPassant ∧
    (unmakePly (makePly s p) p prev).zobristHash = s.zobristHash ∧
    (∀ h, ((unmakePly (makePly s p) p prev).visitedPositions h).getD 0
      = (s.visitedPositions h).getD 0) := by
  obtain ⟨h1, h2, _, h4, h5, h6, h7, h8, _⟩ := makePly_unmakePly_restore s p prev hwf hfits
  exact ⟨h1, h2, h4, h5, by rw [h6, hep], h7, h8⟩

/-- Witness for the amended C1 at a concrete capture: the rook takes the
pawn on square 0 of `posRookPawns` and the round trip restores the boards
and the hash. -/
theorem c1_round_trip_amended_witness :
    (unmakePly (makePly posRookPawns rookTakesPawn) rookTakesPawn none).boards
      = posRookPawns.boards ∧
    (unmakePly (makePly posRookPawns rookTakesPawn) rookTakesPawn none).zobristHash
      = posRookPawns.zobristHash := by
  have h := c1_round_trip_amended posRookPawns rookTakesPawn none
    ⟨by decide, by decide, by decide, by decide, by decide, by decide⟩
    ⟨by decide, by decide, by decide, by decide,
     by
      show BLACK_PAWN.color = rookTakesPawn.movingPiece.color.next ∧ 0 < 256 ∧
        (boardAt posRookPawns (bitboardIdx BLACK_PAWN)).testBit 0 = true
      decide,
     by decide⟩
    (by decide)
  exact ⟨h.1, h.2.2.2.2.2.1⟩

/-- C9 (amended).  On a well-formed position whose pseudolegal candidates
all fit it (their origins occupied, destinations free, named victims
present), a non-empty run of the legality filter zeroes the en-passant
board — `unmake_ply(ply, None)` overwrites it — while the piece boards and
the zobrist hash are restored to their pre-call values. -/
theorem c9_filter_frame_amended (cands : List Ply) (s : Bitboards)
    (hwf : WFBoards s) (hfit : ∀ p ∈ cands, PlyFits s p) (hne : cands ≠ []) :
    (legalityFilter cands s).2.enPassant = 0 ∧
    (legalityFilter cands s).2.boards = s.boards ∧
    (legalityFilter cands s).2.zobristHash = s.zobristHash := by
  obtain ⟨hb, _, _, _, _, hh, _, _, hep⟩ := legalityFilter_restore cands s hwf hfit
  have hfalse : cands.isEmpty = false := by
    cases cands with
    | nil => exact absurd rfl hne
    | cons a l => rfl
  refine ⟨?_, hb, hh⟩
  rw [hep, hfalse]
  simp

/-- Witness for the amended C9: in `posAfterDouble` (en passant set to the
skipped square 16) filtering the quiet push 33 → 17 zeroes the en-passant
board while boards and hash come back. -/
theorem c9_filter_frame_amended_witness :
    posAfterDouble.enPassant ≠ 0 ∧
    (legalityFilter [c9WitnessPly] posAfterDouble).2.enPassant = 0 ∧
    (legalityFilter [c9WitnessPly] posAfterDouble).2.boards = posAfterDouble.boards ∧
    (legalityFilter [c9WitnessPly] posAfterDouble).2.zobristHash
      = posAfterDouble.zobristHash := by
  have h := c9_filter_frame_amended [c9WitnessPly] posAfterDouble
    ⟨by decide, by decide, by decide, by decide, by decide, by decide⟩
    (fun p hp => by
      rw [List.mem_singleton] at hp
      subst hp
      exact ⟨by decide, by decide, by decide, by decide, trivial, by decide⟩)
    (by simp)
  exact ⟨by decide, h.1, h.2.1, h.2.2⟩

/-! ## Score ranges for the depth-1 search characterisation -/

theorem satNeg_mem (x : Int) (h1 : intMin ≤ x) (h2 : x ≤ intMax) :
    intMin < satNeg x ∧ satNeg x ≤ intMax := by
  unfold satNeg intMin intMax at *
  split <;> omega

theorem wrap32_range (z : Int) : intMin ≤ wrap32 z ∧ wrap32 z ≤ intMax := by
  have h1 := Int.emod_nonneg (z + 2 ^ 31) (by norm_num : (2 ^ 32 : Int) ≠ 0)
  have h2 := Int.emod_lt_of_pos (z + 2 ^ 31) (by norm_num : (0 : Int) < 2 ^ 32)
  unfold wrap32 intMin intMax
  omega

theorem evaluate_range (s : Bitboards) (meta : SearchMeta) :
    intMin ≤ (evaluate s meta).1 ∧ (evaluate s meta).1 ≤ intMax := by
  obtain ⟨z, hz⟩ : ∃ z : Int, (evaluate s meta).1 = wrap32 z := by
    unfold evaluate
    rcases allLegalPlysByColor s .White with ⟨wp, s1⟩
    rcases allLegalPlysByColor s1 .Black with ⟨bp, s2⟩
    exact ⟨_, rfl⟩
  rw [hz]
  exact wrap32_range z

theorem quiescenceLoop_range
    (rec : Bitboards → SearchMeta → Int → Int → Int × Bitboards × SearchMeta)
    (hrec : ∀ s m a b, intMin ≤ a → a ≤ intMax → intMin ≤ b → b ≤ intMax →
      intMin ≤ (rec s m a b).1 ∧ (rec s m a b).1 ≤ intMax) :
    ∀ (plys : List Ply), ∀ (s : Bitboards) (meta : SearchMeta) (alpha beta best : Int),
      intMin ≤ alpha → alpha ≤ intMax → intMin ≤ beta → beta ≤ intMax →
      intMin ≤ best → best ≤ intMax →
      intMin ≤ (quiescenceLoop rec plys s meta alpha beta best).1 ∧
      (quiescenceLoop rec plys s meta alpha beta best).1 ≤ intMax := by
  intro plys
  induction plys with
  | nil =>
    intro s meta alpha beta best ha1 ha2 hb1 hb2 hs1 hs2
    simp only [quiescenceLoop]
    exact ⟨hs1, hs2⟩
  | cons ply rest ih =>
    intro s meta alpha beta best ha1 ha2 hb1 hb2 hs1 hs2
    simp only [quiescenceLoop]
    have hbb := satNeg_mem beta hb1 hb2
    have haa := satNeg_mem alpha ha1 ha2
    have hsc := satNeg_mem _
      (hrec (makePly s ply)
        { meta with nodesVisited := meta.nodesVisited + 1,
                    currentTree := meta.currentTree ++ [ply] }
        (satNeg beta) (satNeg alpha) (le_of_lt hbb.1) hbb.2 (le_of_lt haa.1) haa.2).1
      (hrec (makePly s ply)
        { meta with nodesVisited := meta.nodesVisited + 1,
                    currentTree := meta.currentTree ++ [ply] }
        (satNeg beta) (satNeg alpha) (le_of_lt hbb.1) hbb.2 (le_of_lt haa.1) haa.2).2
    generalize hq : satNeg
      (rec (makePly s ply)
        { meta with nodesVisited := meta.nodesVisited + 1,
                    currentTree := meta.currentTree ++ [ply] }
        (satNeg beta) (satNeg alpha)).1 = score
    rw [hq] at hsc
    split
    · split
      · exact ⟨le_of_lt hsc.1, hsc.2⟩
      · exact ⟨hs1, hs2⟩
    · split
      · exact ih _ _ _ _ _ (by split <;> omega) (by split <;> omega) hb1 hb2
          (by omega) (by omega)
      · exact ih _ _ _ _ _ ha1 ha2 hb1 hb2 hs1 hs2

theorem quiescence_range :
    ∀ (fuel : Nat) (s : Bitboards) (meta : SearchMeta) (alpha beta : Int),
      intMin ≤ alpha → alpha ≤ intMax → intMin ≤ beta → beta ≤ intMax →
      intMin ≤ (quiescenceSearch fuel s meta alpha beta).1 ∧
      (quiescenceSearch fuel s meta alpha beta).1 ≤ intMax := by
  intro fuel
  induction fuel with
  | zero =>
    intro s meta alpha beta ha1 ha2 hb1 hb2
    simp only [quiescenceSearch]
    have he := evaluate_range s meta
    split
    · exact ⟨hb1, hb2⟩
    · exact he
  | succ fuel ih =>
    intro s meta alpha beta ha1 ha2 hb1 hb2
    simp only [quiescenceSearch]
    have he := evaluate_range s meta
    split
    · exact ⟨hb1, hb2⟩
    · exact quiescenceLoop_range _ (fun s m a b => ih s m a b) _ _ _ _ _ _
        (by split <;> omega) (by split <;> omega) hb1 hb2 he.1 he.2

theorem alphaBeta_zero_range (s : Bitboards) (meta : SearchMeta) (alpha beta : Int)
    (ha1 : intMin ≤ alpha) (ha2 : alpha ≤ intMax)
    (hb1 : intMin ≤ beta) (hb2 : beta ≤ intMax) :
    intMin ≤ (alphaBeta 0 s meta alpha beta).score ∧
    (alphaBeta 0 s meta alpha beta).score ≤ intMax := by
  simp only [alphaBeta]
  exact quiescence_range 256 s meta alpha beta ha1 ha2 hb1 hb2

/-! ## The PV table is untouched by generation and filtering -/

theorem legalityFilter_pv (cands : List Ply) :
    ∀ s : Bitboards, (legalityFilter cands s).2.pvTable = s.pvTable := by
  induction cands with
  | nil => intro s; rfl
  | cons p rest ih =>
    intro s
    simp only [legalityFilter]
    exact ih (unmakePly (makePly s p) p none)

theorem processPieces_pv (t : PieceType) (c : PieceColor) (cf : Bool) :
    ∀ (fuel i : Nat) (s : Bitboards),
      (processPieces t c cf i fuel s).2.pvTable = s.pvTable := by
  intro fuel
  induction fuel with
  | zero => intro i s; rfl
  | succ fuel ih =>
    intro i s
    simp only [processPieces]
    rw [ih, legalityFilter_pv]

theorem allLegalPlysByColor_pv (s : Bitboards) (c : PieceColor) :
    (allLegalPlysByColor s c).2.pvTable = s.pvTable := by
  simp only [allLegalPlysByColor, pieceTypeList, List.foldl]
  simp only [processPieces_pv]

theorem intMin_lt_intMax : intMin < intMax := by unfold intMin intMax; omega

theorem abLoop_some (rec : Bitboards → SearchMeta → Int → Int → AbResult)
    (hrec : ∀ s m a b, intMin ≤ a → a ≤ intMax → intMin ≤ b → b ≤ intMax →
      intMin ≤ (rec s m a b).score ∧ (rec s m a b).score ≤ intMax) :
    ∀ (plys : List Ply) (s : Bitboards) (meta : SearchMeta) (alpha beta : Int)
      (best : Int × Option Ply),
      intMin ≤ alpha → alpha ≤ intMax → intMin ≤ beta → beta ≤ intMax →
      (best.2.isSome = true ∨ (best.1 = intMin ∧ plys ≠ [])) →
      (abLoop rec plys s meta alpha beta best).1.2.isSome = true := by
  intro plys
  induction plys with
  | nil =>
    intro s meta alpha beta best ha1 ha2 hb1 hb2 hcase
    rcases hcase with h | ⟨_, hne⟩
    · simpa [abLoop] using h
    · exact absurd rfl hne
  | cons ply rest ih =>
    intro s meta alpha beta best ha1 ha2 hb1 hb2 hcase
    simp only [abLoop]
    have hbb := satNeg_mem beta hb1 hb2
    have haa := satNeg_mem alpha ha1 ha2
    have hsc := satNeg_mem _
      (hrec (makePly s ply)
        { meta with nodesVisited := meta.nodesVisited + 1,
                    currentTree := meta.currentTree ++ [ply] }
        (satNeg beta) (satNeg alpha) (le_of_lt hbb.1) hbb.2 (le_of_lt haa.1) haa.2).1
      (hrec (makePly s ply)
        { meta with nodesVisited := meta.nodesVisited + 1,
                    currentTree := meta.currentTree ++ [ply] }
        (satNeg beta) (satNeg alpha) (le_of_lt hbb.1) hbb.2 (le_of_lt haa.1) haa.2).2
    generalize hq : satNeg
      (rec (makePly s ply)
        { meta with nodesVisited := meta.nodesVisited + 1,
                    currentTree := meta.currentTree ++ [ply] }
        (satNeg beta) (satNeg alpha)).score = score
    rw [hq] at hsc
    split
    · split
      · simp
      · rcases hcase with h | ⟨hmin, -⟩
        · simpa using h
        · rename_i hngt
          exfalso
          rw [hmin] at hngt
          omega
    · split
      · exact ih _ _ _ _ _ (by split <;> omega) (by split <;> omega) hb1 hb2
          (Or.inl (by simp))
      · rcases hcase with h | ⟨hmin, -⟩
        · exact ih _ _ _ _ _ ha1 ha2 hb1 hb2 (Or.inl h)
        · rename_i hngt
          exfalso
          rw [hmin] at hngt
          omega

/-- At depth one with a PV table that answers `none` everywhere, the best
ply is `none` exactly when the side to move has no legal plys. -/
theorem alphaBeta_one_none_iff (s : Bitboards) (meta : SearchMeta)
    (hpv : ∀ h, s.pvTable h = none) :
    ((alphaBeta (0 + 1) s meta intMin intMax).bestPly = none)
      ↔ (allLegalPlysByColor s (lastPlyBy meta).next).1 = [] := by
  have hrec0 : ∀ (s : Bitboards) (m : SearchMeta) (a b : Int),
      intMin ≤ a → a ≤ intMax → intMin ≤ b → b ≤ intMax →
      intMin ≤ (alphaBeta 0 s m a b).score ∧ (alphaBeta 0 s m a b).score ≤ intMax :=
    fun s m a b h1 h2 h3 h4 => alphaBeta_zero_range s m a b h1 h2 h3 h4
  have hpv2 := allLegalPlysByColor_pv s (lastPlyBy meta).next
  rw [alphaBeta]
  rcases hg : allLegalPlysByColor s (lastPlyBy meta).next with ⟨plys, s1⟩
  rw [hg] at hpv2
  have hlook : s1.pvTable s1.zobristHash = none := by
    rw [show s1.pvTable = s.pvTable from hpv2]
    exact hpv _
  simp only [hlook]
  rcases hf : meta.followPv
  · simp only [hf, Bool.false_eq_true, if_false]
    rcases hplys : plys with _ | ⟨p0, prest⟩
    · simp [abLoop]
    · have hsome := abLoop_some (fun s m a b => alphaBeta 0 s m a b) hrec0
        (p0 :: prest) s1 meta intMin intMax (intMin, none)
        le_rfl (le_of_lt intMin_lt_intMax) (le_of_lt intMin_lt_intMax) le_rfl
        (Or.inr ⟨rfl, by simp⟩)
      constructor
      · intro hnone
        exfalso
        split at hnone <;>
          [skip; split at hnone] <;>
          (simp only at hnone; rw [hnone] at hsome; exact Bool.noConfusion hsome)
      · intro h
        exact absurd h (List.cons_ne_nil p0 prest)
  · simp only [hf, if_true]
    generalize hM : ({ meta with followPv := false } : SearchMeta) = M
    rcases hplys : plys with _ | ⟨p0, prest⟩
    · simp [abLoop]
    · have hsome := abLoop_some (fun s m a b => alphaBeta 0 s m a b) hrec0
        (p0 :: prest) s1 M intMin intMax (intMin, none)
        le_rfl (le_of_lt intMin_lt_intMax) (le_of_lt intMin_lt_intMax) le_rfl
        (Or.inr ⟨rfl, by simp⟩)
      constructor
      · intro hnone
        exfalso
        split at hnone <;>
          [skip; split at hnone] <;>
          (simp only at hnone; rw [hnone] at hsome; exact Bool.noConfusion hsome)
      · intro h
        exact absurd h (List.cons_ne_nil p0 prest)

theorem range_one_eq : List.range 1 = [0] := by
  simp [List.range_succ]

/-- C7 (amended).  At `maxDepth = 1` from a position whose PV table is
empty, `search_next_ply` returns a best ply of `none` exactly when the side
to move has no legal plys (checkmate or stalemate, not distinguished);
absence of a ply is not an error.  (At depths ≤ 0 the claim fails: the
search returns `none` unconditionally, legal plys or not — see the
counterexample.) -/
theorem c7_search_none_amended (s : Bitboards) (lp : Option Ply) (w : Weights)
    (hpv : ∀ h, s.pvTable h = none) :
    ((searchNextPly s lp 1 w).1.2.1 = none)
      ↔ (allLegalPlysByColor s (sideToMove lp)).1 = [] := by
  rcases lp with _ | p <;>
    simp only [searchNextPly, iterativeDeepening, Int.toNat_one, range_one_eq,
      List.map_cons, List.map_nil, List.foldl_cons, List.foldl_nil] <;>
    exact alphaBeta_one_none_iff _ _ hpv

/-- Witness for the amended C7 at the two-pawn fixture with White to move:
the equivalence instantiated at `posPawnPair`, depth 1, default weights. -/
theorem c7_search_none_amended_witness :
    ((searchNextPly posPawnPair none 1 {}).1.2.1 = none)
      ↔ (allLegalPlysByColor posPawnPair (sideToMove none)).1 = [] :=
  c7_search_none_amended posPawnPair none {} (fun _ => rfl)
